import Mathlib

/-!
# Verification of the narwhal node-graph engine

A shallow embedding of the node-graph core of the repository:

* `src/util.rs` — the `BSMap` sorted-vector map (single-value and value-set
  modes), including its binary-search range computations and the exact index
  arithmetic of `remove_value`;
* `src/node/graph.rs` — `Links` (forward/reverse link indices), `Graph`
  (node storage, linking, dirty set, recursive topological sort,
  breadth-first dirty propagation);
* `src/render/renderer.rs` — the renderer's per-node output cache:
  `propagate_cache_invalidation` and `set_cache`.

Machine integers: a node reference (`NodeRef`) wraps a `u64`; it is modelled
as a plain `Nat`, and ids are produced only by `add_node`, which models
`checked_add` by failing (`none`) once the previous greatest id is
`2^64 - 1`.  Port indices (`usize`) never overflow in any
modelled operation, so they are plain `Nat`.

Rust recursion that is not structurally terminating (`toposort`,
`propagate_cache_invalidation`, the `propagate_dirtiness` work-list loop) is
modelled with explicit fuel returning `Option`; `none` models divergence /
stack exhaustion, which the Rust code would hit in the same situations.
Where the Rust function always terminates we compute a sufficient fuel bound
and prove the result is always `some`.
-/

set_option maxRecDepth 4000

namespace Narwhal

/- `NodeRef` (`graph.rs`) is a `u64` id.  It is modelled below as a plain
`Nat` wherever it occurs; the only place the 64-bit width matters is the
`checked_add` in `Graph.addNode`, where the bound is checked explicitly. -/

/-! ## `util.rs`: the `BSMap` sorted-vector map

A `BSMap` is a `Vec<(K, V)>` kept sorted by key; lookups use binary search.
We model the vector as a `List (K × V)` and the two binary searches of
`range_bounds` by their specification on sorted data: `binary_search_by` with
the `Equal ↦ Greater` comparator returns the first index whose comparator
value is not `Less`, and with `Equal ↦ Less` the first index whose value is
`Greater`.  On the sorted vectors maintained by every `BSMap` operation these
are exactly the `takeWhile` lengths below. -/

namespace BSMap

variable {K V : Type}

/-- Lower bound of `range_bounds` (`util.rs`): first index where the probe
comparator is not `Ordering::Less`. -/
def lowerBound (f : K → Ordering) (l : List (K × V)) : Nat :=
  (l.takeWhile fun kv => f kv.1 == Ordering.lt).length

/-- Upper bound of `range_bounds` (`util.rs`): first index where the probe
comparator is `Ordering::Greater`. -/
def upperBound (f : K → Ordering) (l : List (K × V)) : Nat :=
  (l.takeWhile fun kv => f kv.1 != Ordering.gt).length

/-- `range_by` (`util.rs`): the slice `[lower_bound..upper_bound]`. -/
def rangeBy (f : K → Ordering) (l : List (K × V)) : List (K × V) :=
  ((l.drop (lowerBound f l)).take (upperBound f l - lowerBound f l))

/-- `range_by_key` (`util.rs`). -/
def rangeByKey (cmp : K → K → Ordering) (key : K) (l : List (K × V)) :
    List (K × V) :=
  rangeBy (fun probe => cmp probe key) l

/-- `contains_key` (`util.rs`): binary search success, i.e. (on the sorted
vectors maintained by all operations) existence of an entry whose key compares
`Equal`. -/
def containsKey (cmp : K → K → Ordering) (key : K) (l : List (K × V)) : Bool :=
  l.any fun kv => cmp kv.1 key == Ordering.eq

/-- `get` (`util.rs`, single-value mode): binary search, i.e. the entry whose
key compares `Equal` (unique in single-value mode). -/
def getS (cmp : K → K → Ordering) (key : K) (l : List (K × V)) : Option V :=
  (l.find? fun kv => cmp kv.1 key == Ordering.eq).map Prod.snd

/-- `insert` (`util.rs`, single-value mode): replace the entry if the key is
present, otherwise insert at the binary-search position. -/
def insertS (cmp : K → K → Ordering) (key : K) (value : V) (l : List (K × V)) :
    List (K × V) :=
  match l.get? (lowerBound (fun probe => cmp probe key) l) with
  | some kv =>
    if cmp kv.1 key == Ordering.eq then
      l.set (lowerBound (fun probe => cmp probe key) l) (key, value)
    else l.insertIdx (lowerBound (fun probe => cmp probe key) l) (key, value)
  | none => l.insertIdx (lowerBound (fun probe => cmp probe key) l) (key, value)

/-- `remove` (`util.rs`, single-value mode). -/
def removeS (cmp : K → K → Ordering) (key : K) (l : List (K × V)) :
    Option V × List (K × V) :=
  match l.get? (lowerBound (fun probe => cmp probe key) l) with
  | some kv =>
    if cmp kv.1 key == Ordering.eq then
      (some kv.2, l.eraseIdx (lowerBound (fun probe => cmp probe key) l))
    else (none, l)
  | none => (none, l)

/-- `contains_entry` (`util.rs`, value-set mode). -/
def containsEntry [DecidableEq V] (cmp : K → K → Ordering) (key : K)
    (value : V) (l : List (K × V)) : Bool :=
  (rangeBy (fun probe => cmp probe key) l).any fun kv => kv.2 = value

/-- `insert_value` (`util.rs`, value-set mode): no-op when the exact
`(key, value)` entry is present, otherwise insert at the upper bound of the
key range. -/
def insertValue [DecidableEq V] (cmp : K → K → Ordering) (key : K) (value : V)
    (l : List (K × V)) : List (K × V) :=
  if containsEntry cmp key value l then l
  else l.insertIdx (upperBound (fun probe => cmp probe key) l) (key, value)

/-- `remove_value` (`util.rs`, value-set mode), modelled exactly as written:
the linear scan starts at `lower_bound` but the resulting `position` is
*relative* to the skipped iterator, and is then used as an *absolute* index
into the vector (`self.0.remove(index)`); the scan also runs past the end of
the key's range. -/
def removeValue [DecidableEq V] (cmp : K → K → Ordering) (key : K) (value : V)
    (l : List (K × V)) : Option V × List (K × V) :=
  match (l.drop (lowerBound (fun probe => cmp probe key) l)).findIdx?
      (fun kv => kv.2 = value) with
  | some i => ((l.get? i).map Prod.snd, l.eraseIdx i)
  | none => (none, l)

/-- `greatest_key` (`util.rs`): the last key of the sorted vector. -/
def greatestKey (l : List (K × V)) : Option K :=
  l.getLast?.map Prod.fst

end BSMap

/-! ## `node/graph.rs`: links -/

/-- Link metadata (`graph.rs`): the two port indices. -/
structure Link where
  out_prop : Nat
  in_prop : Nat
deriving DecidableEq, Repr

/-- A key for the link map (`graph.rs`), sorted by `to_in` first and
`from_out` second. -/
structure LinkKey where
  from_out : Nat
  to_in : Nat
deriving DecidableEq, Repr

/-- `LinkKey::swap` (`graph.rs`). -/
def LinkKey.swap (k : LinkKey) : LinkKey :=
  { from_out := k.to_in, to_in := k.from_out }

/-- `Ord for LinkKey` (`graph.rs`): compare `to_in`, then `from_out`. -/
def LinkKey.cmp (a b : LinkKey) : Ordering :=
  match compare a.to_in b.to_in with
  | Ordering.eq => compare a.from_out b.from_out
  | x => x

/-- `Links` (`graph.rs`): the forward index (field `0`, key sorted by
destination, value-set mode) and the reverse index (field `1`, swapped keys,
single-value mode with `()` values). -/
structure Links where
  fwd : List (LinkKey × Link)
  rev : List (LinkKey × Unit)
deriving DecidableEq, Repr

namespace Links

/-- `Links::new` (`graph.rs`). -/
def new : Links := ⟨[], []⟩

/-- `Links::get_ins` (`graph.rs`): all links into a node, as
`(source node, link)` pairs. -/
def getIns (l : Links) (key : Nat) : List (Nat × Link) :=
  (BSMap.rangeBy (fun probe => compare probe.to_in key) l.fwd).map
    fun kv => (kv.1.from_out, kv.2)

/-- `Links::get_outs` (`graph.rs`): all links out of a node, as
`(destination node, link)` pairs, gathered through the reverse index. -/
def getOuts (l : Links) (key : Nat) : List (Nat × Link) :=
  (BSMap.rangeBy (fun probe => compare probe.to_in key) l.rev).flatMap
    fun rk =>
      (BSMap.rangeBy (fun probe => LinkKey.cmp probe rk.1.swap) l.fwd).map
        fun kv => (rk.1.from_out, kv.2)

/-- `Links::insert` (`graph.rs`). -/
def insert (l : Links) (from_out to_in : Nat) (link : Link) : Links :=
  { fwd := BSMap.insertValue LinkKey.cmp ⟨from_out, to_in⟩ link l.fwd
    rev := BSMap.insertS LinkKey.cmp (LinkKey.swap ⟨from_out, to_in⟩) () l.rev }

/-- `Links::remove` (`graph.rs`): remove one link via `remove_value`; if no
link with that key remains, drop the reverse entry.  Returns whether a link
was removed. -/
def remove (l : Links) (from_out to_in : Nat) (link : Link) :
    Bool × Links :=
  let key : LinkKey := ⟨from_out, to_in⟩
  match BSMap.removeValue LinkKey.cmp key link l.fwd with
  | (some _, fwd2) =>
    if BSMap.containsKey LinkKey.cmp key fwd2 then (true, { l with fwd := fwd2 })
    else (true, { fwd := fwd2,
                  rev := (BSMap.removeS LinkKey.cmp key.swap l.rev).2 })
  | (none, _) => (false, l)

/-- One step of the first loop of `Links::remove_node` (`graph.rs`): for a
collected link to the node, `remove_value` it from the forward index and drop
its swapped key from the reverse index. -/
def removeNodeInStep (acc : Links) (kv : LinkKey × Link) : Links :=
  { fwd := (BSMap.removeValue LinkKey.cmp kv.1 kv.2 acc.fwd).2
    rev := (BSMap.removeS LinkKey.cmp kv.1.swap acc.rev).2 }

/-- One step of the second loop of `Links::remove_node` (`graph.rs`): for a
collected reverse entry of the node, `remove_value` every forward entry with
the swapped key, then drop the reverse entry. -/
def removeNodeOutStep (acc : Links) (rk : LinkKey × Unit) : Links :=
  let inner := BSMap.rangeBy (fun probe => LinkKey.cmp probe rk.1.swap) acc.fwd
  { fwd := inner.foldl
      (fun fwd kv => (BSMap.removeValue LinkKey.cmp kv.1 kv.2 fwd).2) acc.fwd
    rev := (BSMap.removeS LinkKey.cmp rk.1 acc.rev).2 }

/-- `Links::remove_node` (`graph.rs`): first remove all collected links *to*
the node, then all collected links *from* the node. -/
def removeNode (l : Links) (node : Nat) : Links :=
  let ins := BSMap.rangeBy (fun probe => compare probe.to_in node) l.fwd
  let l1 := ins.foldl removeNodeInStep l
  let outs := BSMap.rangeBy (fun probe => compare probe.to_in node) l1.rev
  outs.foldl removeNodeOutStep l1

end Links

/-! ## `node/node.rs`: nodes -/

/-- Stand-in for `data::Value` (`src/data/value.rs`), a large tagged union
(floats, strings, vectors, paths, textures, …).  No graph or cache algorithm
verified here ever inspects a `Value`; only presence in a property map
matters, so the variants are collapsed into an opaque token. -/
inductive Value where
  | token : Nat → Value
deriving DecidableEq, Repr

/-- `Node` (`node.rs`): enabled flag, node type name, property map. -/
structure Node where
  enabled : Bool
  node_type : String
  props : List (Nat × Value)
deriving DecidableEq, Repr

/-- `Node::empty` (`node.rs`). -/
def Node.empty (node_type : String) : Node :=
  { enabled := true, node_type := node_type, props := [] }

/-! ## `node/graph.rs`: the graph -/

/-- `Graph` (`graph.rs`). -/
structure Graph where
  nodes : List (Nat × Node)
  links : Links
  io_node : Nat
  order : Option (List Nat)
  dirty_nodes : List (Nat × Unit)
deriving DecidableEq, Repr

namespace Graph

/-- `Graph::new` (`graph.rs`). -/
def new : Graph :=
  { nodes := [], links := Links.new, io_node := 0, order := none,
    dirty_nodes := [] }

/-- `Graph::invalidate_order` (`graph.rs`). -/
def invalidateOrder (g : Graph) : Graph := { g with order := none }

/-- `Graph::add_node` (`graph.rs`): id is `greatest_key + 1` (`1` if empty);
`checked_add` overflow of the `u64` id is fatal (`unimplemented!`), modelled
as `none`. -/
def addNode (g : Graph) (node : Node) : Option (Graph × Nat) :=
  match
    (match BSMap.greatestKey g.nodes with
     | none => some 1
     | some k => if k + 1 < 2 ^ 64 then some (k + 1) else none : Option Nat) with
  | none => none
  | some node_ref =>
    some ({ g with nodes := BSMap.insertS compare node_ref node g.nodes
                   dirty_nodes := BSMap.insertS compare node_ref () g.dirty_nodes },
          node_ref)

/-- `Graph::set_output` (`graph.rs`). -/
def setOutput (g : Graph) (node : Nat) : Graph :=
  { g with io_node := node, order := none }

/-- `Graph::node` (`graph.rs`). -/
def node (g : Graph) (n : Nat) : Option Node :=
  BSMap.getS compare n g.nodes

/-- `Graph::node_mut` (`graph.rs`): unconditionally inserts the reference into
the dirty set, then looks the node up.  Returns the lookup result together
with the updated graph. -/
def nodeMut (g : Graph) (n : Nat) : Option Node × Graph :=
  (BSMap.getS compare n g.nodes,
   { g with dirty_nodes := BSMap.insertS compare n () g.dirty_nodes })

/-- `Graph::remove_node` (`graph.rs`): invalidate the order, remove incident
links, remove the node. -/
def removeNode (g : Graph) (n : Nat) : Graph × Option Node :=
  let links := Links.removeNode g.links n
  let rm := BSMap.removeS compare n g.nodes
  ({ g with order := none, links := links, nodes := rm.2 }, rm.1)

/-- `Graph::link` (`graph.rs`). -/
def link (g : Graph) (out_node : Nat) (out_prop : Nat) (in_node : Nat)
    (in_prop : Nat) : Graph :=
  { g with order := none
           links := g.links.insert out_node in_node ⟨out_prop, in_prop⟩ }

/-- `Graph::node_inputs` (`graph.rs`): `(other node, out_prop, in_prop)`. -/
def nodeInputs (g : Graph) (n : Nat) : List (Nat × Nat × Nat) :=
  (g.links.getIns n).map fun p => (p.1, p.2.out_prop, p.2.in_prop)

/-- `Graph::node_outputs` (`graph.rs`): `(other node, out_prop, in_prop)`. -/
def nodeOutputs (g : Graph) (n : Nat) : List (Nat × Nat × Nat) :=
  (g.links.getOuts n).map fun p => (p.1, p.2.out_prop, p.2.in_prop)

/-- `Graph::unlink` (`graph.rs`). -/
def unlink (g : Graph) (out_node : Nat) (out_prop : Nat)
    (in_node : Nat) (in_prop : Nat) : Bool × Graph :=
  let r := g.links.remove out_node in_node ⟨out_prop, in_prop⟩
  (r.1, { g with order := none, links := r.2 })

/-- `Graph::is_dirty` (`graph.rs`). -/
def isDirty (g : Graph) (n : Nat) : Bool :=
  BSMap.containsKey compare n g.dirty_nodes

/-- `Graph::mark_dirty` (`graph.rs`). -/
def markDirty (g : Graph) (n : Nat) : Graph :=
  { g with dirty_nodes := BSMap.insertS compare n () g.dirty_nodes }

end Graph

/-! ### Topological sort (`graph.rs`) -/

/-- `OrderError` (`graph.rs`). -/
inductive OrderError where
  | Cycle : List Nat → OrderError
deriving DecidableEq, Repr

/-- The internal error of `Graph::toposort`: the partial cycle node list and
the completion flag. -/
abbrev TErr := List Nat × Bool

/-- `ToposortState` (`graph.rs`).  The Rust `order` is a mutable vector
threaded through the recursion; it is a plain field here. -/
structure TState where
  order : List Nat
  visiting : List (Nat × Unit)
  marked : List (Nat × Unit)
  io_node : Nat
deriving DecidableEq, Repr

/-- The `map_err` body in the input loop of `Graph::toposort`: on unwind, add
the current node to an incomplete cycle, completing it when its first node
recurs. -/
def augmentErr (node : Nat) (e : TErr) : TErr :=
  if e.2 then e
  else if e.1.head? = some node then (e.1, true)
  else (e.1 ++ [node], false)

/-- The input loop of `Graph::toposort`: run the recursive sort on each input
in turn, augmenting any error with the current node and stopping at the first
failure. -/
def runInputs (rec : Nat → TState → Option (Except TErr TState))
    (node : Nat) :
    List (Nat × Nat × Nat) → TState → Option (Except TErr TState)
  | [], st => some (Except.ok st)
  | (input, _) :: rest, st =>
    match rec input st with
    | none => none
    | some (Except.error e) => some (Except.error (augmentErr node e))
    | some (Except.ok st2) => runInputs rec node rest st2

/-- `Graph::toposort` (`graph.rs`) with explicit fuel bounding the recursion
depth (`none` = fuel exhausted; the actual recursion depth is bounded by the
number of distinct nodes visited, see `toposortFuel_ne_none`). -/
def toposortFuel (g : Graph) : Nat → Nat → TState → Option (Except TErr TState)
  | 0, _, _ => none
  | fuel + 1, node, st =>
    if BSMap.containsKey compare node st.marked then some (Except.ok st)
    else if BSMap.containsKey compare node st.visiting then
      if node = st.io_node then some (Except.ok st)
      else
        some (Except.error ([node], (g.nodeInputs node).any fun x => x.1 == node))
    else
      let st1 := { st with visiting := BSMap.insertS compare node () st.visiting }
      match runInputs (fun i s => toposortFuel g fuel i s) node (g.nodeInputs node) st1 with
      | none => none
      | some (Except.error e) => some (Except.error e)
      | some (Except.ok st2) =>
        some (Except.ok { st2 with
          marked := BSMap.insertS compare node () st2.marked
          order := st2.order ++ [node] })

/-- Every node the toposort recursion can visit: the root plus all link
sources; its length bounds the recursion depth. -/
def toposortCands (g : Graph) : List Nat :=
  (g.io_node :: g.links.fwd.map fun kv => kv.1.from_out).dedup

/-- `Graph::update_order` (`graph.rs`): run the sort from the output node on
a fresh state, with fuel ample for the depth bound, and store the order on
success. -/
def Graph.updateOrder (g : Graph) : Option (Except OrderError Graph) :=
  match toposortFuel g ((toposortCands g).length + 1) g.io_node
      { order := [], visiting := [], marked := [], io_node := g.io_node } with
  | none => none
  | some (Except.error e) => some (Except.error (OrderError.Cycle e.1))
  | some (Except.ok st) => some (Except.ok { g with order := some st.order })

/-! ### Dirty propagation (`graph.rs`) -/

/-- The work-list loop of `Graph::propagate_dirtiness` (`graph.rs`): pop the
front; skip nodes already in the rebuilt dirty set, otherwise insert them and
enqueue their output destinations.  Fuel bounds the number of iterations. -/
def propagateLoop (g : Graph) :
    Nat → List Nat → List (Nat × Unit) → Option (List (Nat × Unit))
  | _, [], dirty => some dirty
  | 0, _ :: _, _ => none
  | fuel + 1, node :: queue, dirty =>
    if BSMap.containsKey compare node dirty then propagateLoop g fuel queue dirty
    else
      propagateLoop g fuel (queue ++ (g.nodeOutputs node).map fun x => x.1)
        (BSMap.insertS compare node () dirty)

/-- Fuel sufficient for `propagateLoop` (proved in `propagateLoop_ne_none`):
every insertion enqueues at most `rev.length * fwd.length` nodes and the
number of insertions is bounded by the candidate count. -/
def dirtyFuel (g : Graph) : Nat :=
  g.dirty_nodes.length +
    ((g.dirty_nodes.map Prod.fst ++
        g.links.rev.map fun kv => kv.1.from_out).dedup.length) *
      (g.links.rev.length * g.links.fwd.length + 1) + 1

/-- `Graph::propagate_dirtiness` (`graph.rs`): drain the dirty set into a
queue and walk forward, rebuilding the dirty set. -/
def Graph.propagateDirtiness (g : Graph) : Option Graph :=
  match propagateLoop g (dirtyFuel g) (g.dirty_nodes.map Prod.fst) [] with
  | none => none
  | some dirty => some { g with dirty_nodes := dirty }

/-! ## `render/renderer.rs`: the output cache -/

/-- The renderer's output cache `FnvHashMap<Nat, FnvHashMap<usize,
Arc<Value>>>`, as an association list with unique keys.  The type parameter
`V` stands for one node's whole output map, compared by value exactly as the
`cached != &outputs` test in `set_cache` compares the hash maps. -/
abbrev Cache (V : Type) := List (Nat × V)

namespace Renderer

variable {V : Type} [DecidableEq V]

/-- `HashMap::get` on the cache. -/
def lookupCache (cache : Cache V) (n : Nat) : Option V :=
  (cache.find? fun kv => kv.1 == n).map Prod.snd

/-- `HashMap::insert` on the cache; keys are unique, so replacement is
modelled by prepending the new entry and dropping any old one. -/
def insertCache (cache : Cache V) (n : Nat) (v : V) : Cache V :=
  (n, v) :: cache.filter fun kv => kv.1 ≠ n

/-- `HashMap::remove` on the cache. -/
def removeCache (cache : Cache V) (n : Nat) : Cache V :=
  cache.filter fun kv => kv.1 ≠ n

/-- The loop of `Renderer::propagate_cache_invalidation`: for each output
destination, remove its cache entry, then recurse into it. -/
def invalidateList (rec : Nat → Cache V → Option (Cache V)) :
    List (Nat × Nat × Nat) → Cache V → Option (Cache V)
  | [], cache => some cache
  | (m, _) :: rest, cache =>
    match rec m (removeCache cache m) with
    | none => none
    | some c2 => invalidateList rec rest c2

/-- `Renderer::propagate_cache_invalidation` (`renderer.rs`) with explicit
fuel bounding the recursion depth; the Rust recursion does not terminate on
graphs whose links are cyclic, modelled by `none`. -/
def propagateCacheInvalidation (g : Graph) :
    Nat → Nat → Cache V → Option (Cache V)
  | 0, _, _ => none
  | fuel + 1, node, cache =>
    invalidateList (fun m c => propagateCacheInvalidation g fuel m c)
      (g.nodeOutputs node) cache

/-- `Renderer::set_cache` (`renderer.rs`): if a cached value exists and
differs from the fresh outputs, return with the cache unchanged; otherwise
insert the fresh outputs and propagate invalidation downstream. -/
def setCache (g : Graph) (fuel : Nat) (cache : Cache V) (node : Nat)
    (outputs : V) : Option (Cache V) :=
  match lookupCache cache node with
  | some cached =>
    if cached ≠ outputs then some cache
    else propagateCacheInvalidation g fuel node (insertCache cache node outputs)
  | none => propagateCacheInvalidation g fuel node (insertCache cache node outputs)

end Renderer

/-! ## Derived definitions used by the verification -/

/-- Numeric rank of an `Ordering`, for stating comparator monotonicity. -/
def ordRank : Ordering → Nat
  | Ordering.lt => 0
  | Ordering.eq => 1
  | Ordering.gt => 2

/-- Comparator monotonicity along a vector: the premise under which binary
search is specified. -/
def MonoOn {K V : Type} (f : K → Ordering) (l : List (K × V)) : Prop :=
  l.Pairwise fun a b => ordRank (f a.1) ≤ ordRank (f b.1)

/-- The forward index is sorted by `LinkKey` (duplicate keys allowed: one
entry per distinct link value). -/
def FwdSorted (l : List (LinkKey × Link)) : Prop :=
  l.Pairwise fun a b => LinkKey.cmp a.1 b.1 ≠ Ordering.gt

/-- The reverse index is strictly sorted by `LinkKey`. -/
def RevSorted (l : List (LinkKey × Unit)) : Prop :=
  l.Pairwise fun a b => LinkKey.cmp a.1 b.1 = Ordering.lt

/-- A `BSMap` with `Nat` keys is strictly sorted. -/
def NatSorted {V : Type} (l : List (Nat × V)) : Prop :=
  l.Pairwise fun a b => a.1 < b.1

instance (l : List (LinkKey × Link)) : Decidable (FwdSorted l) := by
  unfold FwdSorted; infer_instance

instance (l : List (LinkKey × Unit)) : Decidable (RevSorted l) := by
  unfold RevSorted; infer_instance

instance {V : Type} (l : List (Nat × V)) : Decidable (NatSorted l) := by
  unfold NatSorted; infer_instance

/-- `Edge g u v`: the link set (the forward index) contains a link from `u`
to `v`. -/
def Edge (g : Graph) (u v : Nat) : Prop :=
  ∃ kv ∈ g.links.fwd, kv.1.from_out = u ∧ kv.1.to_in = v

instance (g : Graph) (u v : Nat) : Decidable (Edge g u v) :=
  decidable_of_iff (∃ kv ∈ g.links.fwd, kv.1.from_out = u ∧ kv.1.to_in = v)
    Iff.rfl

/-- Well-formedness of the link indices: both sorted, and agreeing in
membership (every reverse key is the swap of some forward key and
conversely).  Graphs built by `add_node`/`link` alone satisfy this. -/
def Graph.Wf (g : Graph) : Prop :=
  FwdSorted g.links.fwd ∧ RevSorted g.links.rev ∧
  (∀ kv ∈ g.links.rev, ∃ kv2 ∈ g.links.fwd, kv2.1 = LinkKey.swap kv.1) ∧
  (∀ kv ∈ g.links.fwd, ∃ kv2 ∈ g.links.rev, kv2.1 = LinkKey.swap kv.1)

instance (g : Graph) : Decidable g.Wf := by
  unfold Graph.Wf; infer_instance

/-- The key list of a `Nat`-keyed map. -/
def keys {V : Type} (l : List (Nat × V)) : List Nat := l.map Prod.fst


/-- `Graph::mark_clean` (`graph.rs`). -/
def Graph.markClean (g : Graph) (n : Nat) : Graph :=
  { g with dirty_nodes := (BSMap.removeS compare n g.dirty_nodes).2 }

/-- Reachability along links: zero or more `Edge` steps. -/
def Reach (g : Graph) (u v : Nat) : Prop := Relation.ReflTransGen (Edge g) u v

/-- The destination relation actually traversed by the forward walks:
`m` appears among `node_outputs n`.  Equivalent to `Edge` on well-formed
graphs (`outEdge_iff_edge`). -/
def OutEdge (g : Graph) (n m : Nat) : Prop := ∃ x ∈ g.nodeOutputs n, x.1 = m

/-- Acyclicity with respect to output-reachability (spec §3): no node that
reaches the output node lies on a cycle. -/
def Acyclic (g : Graph) : Prop :=
  ∀ n, Reach g n g.io_node → ¬ Relation.TransGen (Edge g) n n

/-- Folding `add_node` over a list of nodes, collecting the returned refs. -/
def addNodes (g : Graph) : List Node → Option (Graph × List Nat)
  | [] => some (g, [])
  | n :: rest =>
    match g.addNode n with
    | none => none
    | some (g2, r) =>
      match addNodes g2 rest with
      | none => none
      | some (g3, rs) => some (g3, r :: rs)

/-! ### Specification predicates for the topological sort -/

/-- Invariant of the toposort state: `marked` and `order` list the same
nodes; the order is duplicate-free, contains only nodes that reach the
output, is closed under inputs up to the output node, and lists every
non-output input of an ordered node before it. -/
def StInv (g : Graph) (st : TState) : Prop :=
  (∀ x, x ∈ keys st.marked ↔ x ∈ st.order) ∧
  st.order.Nodup ∧
  (∀ x ∈ st.order, Reach g x st.io_node) ∧
  (∀ v ∈ st.order, ∀ u, Edge g u v → u ∈ st.order ∨ u = st.io_node) ∧
  (∀ u v, Edge g u v → u ≠ st.io_node → v ∈ st.order →
    u ∈ st.order ∧ st.order.indexOf u < st.order.indexOf v)

/-- The visiting set equals the marked set plus the current recursion stack;
the stack is a chain of edges (each entry an input of the next) ending at the
output node. -/
def StackInv (g : Graph) (st : TState) (stack : List Nat) : Prop :=
  (∀ x, x ∈ keys st.visiting ↔ x ∈ keys st.marked ∨ x ∈ stack) ∧
  (∀ x ∈ stack, x ∉ keys st.marked) ∧
  stack.Nodup ∧
  stack.Chain' (Edge g) ∧
  (stack ≠ [] → stack.getLast? = some st.io_node)

/-- Relation between the currently visited node and the stack. -/
def NodeOk (g : Graph) (st : TState) (stack : List Nat) (node : Nat) : Prop :=
  Reach g node st.io_node ∧
  (match stack with
   | [] => node = st.io_node
   | p :: _ => Edge g node p)

/-- Postcondition of a successful `toposort` call. -/
def PostOk (g : Graph) (st : TState) (stack : List Nat) (node : Nat)
    (st2 : TState) : Prop :=
  st2.io_node = st.io_node ∧
  (∃ suf, st2.order = st.order ++ suf) ∧
  (∀ x ∈ keys st.marked, x ∈ keys st2.marked) ∧
  (∀ x ∈ keys st.visiting, x ∈ keys st2.visiting) ∧
  StInv g st2 ∧
  (∀ x, x ∈ keys st2.visiting ↔ x ∈ keys st2.marked ∨ x ∈ stack) ∧
  (∀ x ∈ stack, x ∉ keys st2.marked) ∧
  (node ∈ keys st2.marked ∨ (node = st.io_node ∧ node ∈ stack))

/-- Postcondition of a failed `toposort` call: the accumulated error is a
non-empty edge chain of output-reaching nodes; once complete it is a closed
loop, and while incomplete it ends at the current node and started at a node
on the current stack. -/
def PostErr (g : Graph) (st : TState) (stack : List Nat) (node : Nat)
    (e : TErr) : Prop :=
  e.1 ≠ [] ∧
  (∀ x ∈ e.1, Reach g x st.io_node) ∧
  (e.2 = true → List.Chain' (Edge g) (e.1 ++ e.1.take 1)) ∧
  (e.2 = false → List.Chain' (Edge g) e.1 ∧ e.1.getLast? = some node ∧
    ∃ v ∈ stack, e.1.head? = some v)

/-! ### Concrete graphs for witnesses, counterexamples and failing inputs -/

/-- Nodes `a`,`b`,`c` (refs 1,2,3), links `a→b`, `b→c`, output `c`, plus the
back link `c→a`: the spec §8 cyclic scenario (cycle through the output). -/
def scenarioCycleThroughOutput : Option Graph := do
  let (g, a) ← Graph.new.addNode (Node.empty "a")
  let (g, b) ← g.addNode (Node.empty "b")
  let (g, c) ← g.addNode (Node.empty "c")
  pure ((((g.link a 0 b 0).link b 0 c 0).setOutput c).link c 0 a 0)

/-- The unwrapped §8 cyclic scenario graph (the builder succeeds). -/
def cycleThroughOutputG : Graph :=
  match scenarioCycleThroughOutput with
  | some g => g
  | none => Graph.new

/-- Nodes `a`,`b`,`c` with a two-node cycle `a⇄b` feeding output `c`:
a cycle avoiding the output node. -/
def scenarioCycleAvoidingOutput : Option Graph := do
  let (g, a) ← Graph.new.addNode (Node.empty "a")
  let (g, b) ← g.addNode (Node.empty "b")
  let (g, c) ← g.addNode (Node.empty "c")
  pure ((((g.link a 0 b 0).link b 0 a 0).link b 0 c 0).setOutput c)

/-- The unwrapped cycle-avoiding-output graph. -/
def cycleAvoidingOutputG : Graph :=
  match scenarioCycleAvoidingOutput with
  | some g => g
  | none => Graph.new

/-- Nodes 1,2,3 with links `1→2` and `1→3`, then `unlink 1 0 3 0`:
the `remove_value` index bug removes link `1→2` instead (claim C6). -/
def unlinkMisRemove : Option Graph := do
  let (g, a) ← Graph.new.addNode (Node.empty "a")
  let (g, b) ← g.addNode (Node.empty "b")
  let (g, c) ← g.addNode (Node.empty "c")
  pure (((g.link a 0 b 0).link a 0 c 0).unlink a 0 c 0).2

/-- Nodes 1,2,3 with links `1→2` and `1→3`, then `remove_node 3`
(claim C7's failing input). -/
def removeNodeMisRemove : Option Graph := do
  let (g, a) ← Graph.new.addNode (Node.empty "a")
  let (g, b) ← g.addNode (Node.empty "b")
  let (g, c) ← g.addNode (Node.empty "c")
  pure (((g.link a 0 b 0).link a 0 c 0).removeNode c).1

/-- `add`, `add`, `remove` the second node, `add` again: the refs returned by
the second and fourth `add_node` calls (claim C3's counterexample). -/
def idReuseRefs : Option (Nat × Nat) := do
  let (g, _) ← Graph.new.addNode (Node.empty "a")
  let (g, r2) ← g.addNode (Node.empty "b")
  let g := (g.removeNode r2).1
  let (_, r3) ← g.addNode (Node.empty "c")
  pure (r2, r3)

/-- The graph after adding three nodes to the empty graph. -/
def threeG : Graph :=
  match addNodes Graph.new [Node.empty "a", Node.empty "b", Node.empty "c"] with
  | some (g, _) => g
  | none => Graph.new

/-- Two nodes with the single link `1→2`. -/
def linkedPairG : Graph :=
  match (do
      let (g, a) ← Graph.new.addNode (Node.empty "a")
      let (g, b) ← g.addNode (Node.empty "b")
      pure (g.link a 0 b 0) : Option Graph) with
  | some g => g
  | none => Graph.new

/-- The chain `a→b→c` with output `c`. -/
def chainG : Graph :=
  match (do
      let (g, a) ← Graph.new.addNode (Node.empty "a")
      let (g, b) ← g.addNode (Node.empty "b")
      let (g, c) ← g.addNode (Node.empty "c")
      pure (((g.link a 0 b 0).link b 0 c 0).setOutput c) : Option Graph) with
  | some g => g
  | none => Graph.new

/-- The chain with only node `a` dirty (nodes start dirty after `add_node`;
`mark_clean` the other two). -/
def chainDirtyA : Graph := (chainG.markClean 2).markClean 3

/-! ## Ordering infrastructure

`BSMap` keeps its vector sorted; `range_bounds` is binary search, which is
specified only on data whose comparator is monotone along the vector.  The
lemmas here characterise `rangeBy` on such data. -/

theorem ordRank_le_two (o : Ordering) : ordRank o ≤ 2 := by
  cases o <;> simp [ordRank]

theorem ordBeq_iff {a b : Ordering} : (a == b) = true ↔ a = b := by
  cases a <;> cases b <;> decide

theorem natCompare_rank_mono {a b t : Nat} (h : a ≤ b) :
    ordRank (compare a t) ≤ ordRank (compare b t) := by
  cases hbt : compare b t with
  | lt =>
    have hb : b < t := Nat.compare_eq_lt.mp hbt
    have hat : compare a t = Ordering.lt := Nat.compare_eq_lt.mpr (by omega)
    simp [hat, ordRank]
  | eq =>
    have hb : b = t := Nat.compare_eq_eq.mp hbt
    cases hat : compare a t with
    | lt => simp [ordRank]
    | eq => simp [ordRank]
    | gt =>
      have hta : t < a := Nat.compare_eq_gt.mp hat
      exfalso; omega
  | gt => exact ordRank_le_two _

theorem lkCmp_lt_iff {a b : LinkKey} :
    LinkKey.cmp a b = Ordering.lt ↔
      a.to_in < b.to_in ∨ (a.to_in = b.to_in ∧ a.from_out < b.from_out) := by
  unfold LinkKey.cmp
  cases h : compare a.to_in b.to_in with
  | lt =>
    have h1 := Nat.compare_eq_lt.mp h
    exact iff_of_true rfl (Or.inl h1)
  | eq =>
    have h1 := Nat.compare_eq_eq.mp h
    rw [Nat.compare_eq_lt]
    omega
  | gt =>
    have h1 := Nat.compare_eq_gt.mp h
    constructor
    · intro hc; exact absurd hc (by simp)
    · intro hc; exact absurd hc (by omega)

theorem lkCmp_eq_iff {a b : LinkKey} :
    LinkKey.cmp a b = Ordering.eq ↔ a = b := by
  have hsplit : a = b ↔ a.to_in = b.to_in ∧ a.from_out = b.from_out := by
    cases a; cases b; simp [and_comm]
  unfold LinkKey.cmp
  cases h : compare a.to_in b.to_in with
  | lt =>
    have h1 := Nat.compare_eq_lt.mp h
    constructor
    · intro hc; exact absurd hc (by simp)
    · intro hc; exact absurd (hsplit.mp hc) (by omega)
  | eq =>
    have h1 := Nat.compare_eq_eq.mp h
    rw [Nat.compare_eq_eq, hsplit]
    omega
  | gt =>
    have h1 := Nat.compare_eq_gt.mp h
    constructor
    · intro hc; exact absurd hc (by simp)
    · intro hc; exact absurd (hsplit.mp hc) (by omega)

theorem lkCmp_gt_iff {a b : LinkKey} :
    LinkKey.cmp a b = Ordering.gt ↔
      b.to_in < a.to_in ∨ (b.to_in = a.to_in ∧ b.from_out < a.from_out) := by
  unfold LinkKey.cmp
  cases h : compare a.to_in b.to_in with
  | lt =>
    have h1 := Nat.compare_eq_lt.mp h
    constructor
    · intro hc; exact absurd hc (by simp)
    · intro hc; exact absurd hc (by omega)
  | eq =>
    have h1 := Nat.compare_eq_eq.mp h
    rw [Nat.compare_eq_gt]
    omega
  | gt =>
    have h1 := Nat.compare_eq_gt.mp h
    exact iff_of_true rfl (Or.inl h1)

theorem lkCmp_not_gt_iff {a b : LinkKey} :
    LinkKey.cmp a b ≠ Ordering.gt ↔
      a.to_in < b.to_in ∨ (a.to_in = b.to_in ∧ a.from_out ≤ b.from_out) := by
  have h := lkCmp_gt_iff (a := a) (b := b)
  constructor
  · intro hne
    have h2 : ¬(b.to_in < a.to_in ∨ (b.to_in = a.to_in ∧ b.from_out < a.from_out)) :=
      fun hx => hne (h.mpr hx)
    omega
  · intro hx hgt
    have h2 := h.mp hgt
    omega

theorem lk_rank_mono_cmp {a b t : LinkKey} (h : LinkKey.cmp a b ≠ Ordering.gt) :
    ordRank (LinkKey.cmp a t) ≤ ordRank (LinkKey.cmp b t) := by
  rw [lkCmp_not_gt_iff] at h
  cases hbt : LinkKey.cmp b t with
  | lt =>
    have hb := lkCmp_lt_iff.mp hbt
    have hat : LinkKey.cmp a t = Ordering.lt := lkCmp_lt_iff.mpr (by omega)
    simp [hat, ordRank]
  | eq =>
    have hb := lkCmp_eq_iff.mp hbt
    subst hb
    cases hat : LinkKey.cmp a b with
    | lt => simp [ordRank]
    | eq => simp [ordRank]
    | gt =>
      have h2 := lkCmp_gt_iff.mp hat
      exfalso; omega
  | gt => exact ordRank_le_two _

theorem lk_rank_mono_to_in {a b : LinkKey} {t : Nat}
    (h : LinkKey.cmp a b ≠ Ordering.gt) :
    ordRank (compare a.to_in t) ≤ ordRank (compare b.to_in t) := by
  rw [lkCmp_not_gt_iff] at h
  exact natCompare_rank_mono (by omega)

section RangeLemmas

variable {K V : Type} {f : K → Ordering} {l : List (K × V)}

theorem takeWhile_append_all {A : Type} {p : A → Bool} {l1 l2 : List A}
    (h : ∀ a ∈ l1, p a = true) :
    (l1 ++ l2).takeWhile p = l1 ++ l2.takeWhile p := by
  induction l1 with
  | nil => simp
  | cons a l ih =>
    rw [List.cons_append, List.takeWhile_cons, if_pos (h a (by simp)),
      List.cons_append]
    rw [ih fun a ha => h a (by simp [ha])]

theorem takeWhile_congr_all {A : Type} {p q : A → Bool} {l : List A}
    (h : ∀ a ∈ l, p a = q a) : l.takeWhile p = l.takeWhile q := by
  induction l with
  | nil => rfl
  | cons a l ih =>
    rw [List.takeWhile_cons, List.takeWhile_cons, h a (by simp)]
    cases hq : q a with
    | false => simp
    | true => simp [ih fun a ha => h a (by simp [ha])]

theorem take_length_takeWhile {A : Type} (p : A → Bool) (l : List A) :
    l.take (l.takeWhile p).length = l.takeWhile p := by
  induction l with
  | nil => rfl
  | cons a l ih =>
    cases hp : p a with
    | false => simp [List.takeWhile_cons, hp]
    | true => simp [List.takeWhile_cons, hp, ih]

theorem not_lt_of_mem_dropWhile_lt (h : MonoOn f l) {x : K × V}
    (hx : x ∈ l.dropWhile fun kv => f kv.1 == Ordering.lt) :
    f x.1 ≠ Ordering.lt := by
  induction l with
  | nil => cases hx
  | cons a l ih =>
    by_cases ha : (f a.1 == Ordering.lt) = true
    · rw [List.dropWhile_cons, if_pos ha] at hx
      exact ih (List.pairwise_cons.mp h).2 hx
    · rw [List.dropWhile_cons, if_neg ha] at hx
      have ha2 : f a.1 ≠ Ordering.lt := fun hh => ha (by rw [hh]; rfl)
      rcases List.mem_cons.mp hx with rfl | hxl
      · exact ha2
      · have h1 := (List.pairwise_cons.mp h).1 x hxl
        intro hcon
        rw [hcon] at h1
        cases hfa : f a.1 with
        | lt => exact ha2 hfa
        | eq => rw [hfa] at h1; simp [ordRank] at h1
        | gt => rw [hfa] at h1; simp [ordRank] at h1

theorem gt_of_mem_dropWhile_eq (hpw : MonoOn f l)
    (hnl : ∀ y ∈ l, f y.1 ≠ Ordering.lt) {x : K × V}
    (hx : x ∈ l.dropWhile fun kv => f kv.1 == Ordering.eq) :
    f x.1 = Ordering.gt := by
  induction l with
  | nil => cases hx
  | cons a l ih =>
    by_cases ha : (f a.1 == Ordering.eq) = true
    · rw [List.dropWhile_cons, if_pos ha] at hx
      exact ih (List.pairwise_cons.mp hpw).2 (fun y hy => hnl y (by simp [hy])) hx
    · rw [List.dropWhile_cons, if_neg ha] at hx
      have ha2 : f a.1 = Ordering.gt := by
        have hal := hnl a (by simp)
        cases hfa : f a.1 with
        | lt => exact absurd hfa hal
        | eq => exact absurd (by rw [hfa]; rfl) ha
        | gt => rfl
      rcases List.mem_cons.mp hx with rfl | hxl
      · exact ha2
      · have h1 := (List.pairwise_cons.mp hpw).1 x hxl
        rw [ha2] at h1
        cases hfx : f x.1 with
        | lt => exact absurd hfx (hnl x (by simp [hxl]))
        | eq => rw [hfx] at h1; simp [ordRank] at h1
        | gt => rfl

theorem drop_length_takeWhile {A : Type} (p : A → Bool) (l : List A) :
    l.drop (l.takeWhile p).length = l.dropWhile p := by
  induction l with
  | nil => rfl
  | cons a l ih =>
    cases hp : p a with
    | false => simp [List.takeWhile_cons, List.dropWhile_cons, hp]
    | true => simp [List.takeWhile_cons, List.dropWhile_cons, hp, ih]

theorem rangeBy_eq_of_mono (h : MonoOn f l) :
    BSMap.rangeBy f l =
      (l.dropWhile fun kv => f kv.1 == Ordering.lt).takeWhile
        fun kv => f kv.1 == Ordering.eq := by
  unfold BSMap.rangeBy BSMap.lowerBound BSMap.upperBound
  have hsplit := List.takeWhile_append_dropWhile
    (p := fun kv : K × V => f kv.1 == Ordering.lt) (l := l)
  have hdrop : l.drop (l.takeWhile fun kv => f kv.1 == Ordering.lt).length
      = l.dropWhile fun kv => f kv.1 == Ordering.lt :=
    drop_length_takeWhile _ _
  have hRnotlt : ∀ x ∈ (l.dropWhile fun kv => f kv.1 == Ordering.lt),
      f x.1 ≠ Ordering.lt := fun x hx => not_lt_of_mem_dropWhile_lt h hx
  have hall : ∀ a ∈ (l.takeWhile fun kv => f kv.1 == Ordering.lt),
      (fun kv : K × V => f kv.1 != Ordering.gt) a = true := by
    intro a ha
    have hpa := List.mem_takeWhile_imp ha
    have hlt : f a.1 = Ordering.lt := ordBeq_iff.mp hpa
    show (f a.1 != Ordering.gt) = true
    rw [hlt]; rfl
  have hub : (l.takeWhile fun kv => f kv.1 != Ordering.gt) =
      (l.takeWhile fun kv => f kv.1 == Ordering.lt) ++
        ((l.dropWhile fun kv => f kv.1 == Ordering.lt).takeWhile
          fun kv => f kv.1 == Ordering.eq) := by
    conv_lhs => rw [← hsplit]
    rw [takeWhile_append_all hall]
    congr 1
    refine takeWhile_congr_all fun a ha => ?_
    have hne := hRnotlt a ha
    show (f a.1 != Ordering.gt) = (f a.1 == Ordering.eq)
    cases hfa : f a.1 with
    | lt => exact absurd hfa hne
    | eq => rfl
    | gt => rfl
  rw [hub, hdrop]
  simp only [List.length_append, Nat.add_sub_cancel_left]
  exact take_length_takeWhile _ _

theorem mem_rangeBy_of_mono (h : MonoOn f l) {x : K × V} :
    x ∈ BSMap.rangeBy f l ↔ x ∈ l ∧ f x.1 = Ordering.eq := by
  rw [rangeBy_eq_of_mono h]
  constructor
  · intro hx
    have hx1 : x ∈ l.dropWhile fun kv => f kv.1 == Ordering.lt :=
      (List.takeWhile_sublist _).subset hx
    refine ⟨(List.dropWhile_sublist _).subset hx1, ?_⟩
    have hp := List.mem_takeWhile_imp hx
    exact ordBeq_iff.mp hp
  · rintro ⟨hx, hfx⟩
    have hxR : x ∈ l.dropWhile fun kv => f kv.1 == Ordering.lt := by
      have hs := List.takeWhile_append_dropWhile
        (p := fun kv : K × V => f kv.1 == Ordering.lt) (l := l)
      rw [← hs] at hx
      rcases List.mem_append.mp hx with hxa | hxr
      · have := List.mem_takeWhile_imp hxa
        rw [hfx] at this
        cases this
      · exact hxr
    have hRnotlt : ∀ y ∈ (l.dropWhile fun kv => f kv.1 == Ordering.lt),
        f y.1 ≠ Ordering.lt := fun y hy => not_lt_of_mem_dropWhile_lt h hy
    have hpwR : MonoOn f (l.dropWhile fun kv => f kv.1 == Ordering.lt) :=
      List.Pairwise.sublist (List.dropWhile_sublist _) h
    have hsR := List.takeWhile_append_dropWhile
      (p := fun kv : K × V => f kv.1 == Ordering.eq)
      (l := l.dropWhile fun kv => f kv.1 == Ordering.lt)
    rw [← hsR] at hxR
    rcases List.mem_append.mp hxR with hxb | hxc
    · exact hxb
    · have := gt_of_mem_dropWhile_eq hpwR hRnotlt hxc
      rw [hfx] at this
      cases this

theorem mem_of_mem_rangeBy {x : K × V} (hx : x ∈ BSMap.rangeBy f l) : x ∈ l := by
  unfold BSMap.rangeBy at hx
  exact List.mem_of_mem_drop (List.mem_of_mem_take hx)

end RangeLemmas

/-! ## Sorted-index invariants and edge characterisation -/

theorem FwdSorted.monoToIn {l : List (LinkKey × Link)} (h : FwdSorted l)
    (n : Nat) : MonoOn (fun probe => compare probe.to_in n) l :=
  h.imp fun hab => lk_rank_mono_to_in hab

theorem FwdSorted.monoCmp {l : List (LinkKey × Link)} (h : FwdSorted l)
    (k : LinkKey) : MonoOn (fun probe => LinkKey.cmp probe k) l :=
  h.imp fun hab => lk_rank_mono_cmp hab

theorem RevSorted.monoToInRev {l : List (LinkKey × Unit)} (h : RevSorted l)
    (n : Nat) : MonoOn (fun probe => compare probe.to_in n) l :=
  h.imp fun hab =>
    lk_rank_mono_to_in (fun hgt => by rw [hab] at hgt; cases hgt)

theorem linkKey_eq_mk_iff {k : LinkKey} {u v : Nat} :
    k = LinkKey.mk u v ↔ k.from_out = u ∧ k.to_in = v := by
  cases k; simp [LinkKey.mk.injEq]

theorem mem_getIns_iff {lk : Links} (hs : FwdSorted lk.fwd) {n u : Nat}
    {li : Link} : (u, li) ∈ lk.getIns n ↔ (LinkKey.mk u n, li) ∈ lk.fwd := by
  unfold Links.getIns
  rw [List.mem_map]
  constructor
  · rintro ⟨kv, hkv, hmap⟩
    have hm := (mem_rangeBy_of_mono (hs.monoToIn n)).mp hkv
    have hto : kv.1.to_in = n := Nat.compare_eq_eq.mp hm.2
    obtain ⟨⟨fo, ti⟩, v⟩ := kv
    simp only at hmap hto
    cases hmap
    subst hto
    exact hm.1
  · intro hmem
    refine ⟨(LinkKey.mk u n, li), ?_, rfl⟩
    exact (mem_rangeBy_of_mono (hs.monoToIn n)).mpr
      ⟨hmem, Nat.compare_eq_eq.mpr rfl⟩

theorem mem_getOuts_iff {lk : Links} (hf : FwdSorted lk.fwd)
    (hr : RevSorted lk.rev)
    (har : ∀ kv ∈ lk.fwd, ∃ kv2 ∈ lk.rev, kv2.1 = LinkKey.swap kv.1)
    {n m : Nat} {li : Link} :
    (m, li) ∈ lk.getOuts n ↔ (LinkKey.mk n m, li) ∈ lk.fwd := by
  unfold Links.getOuts
  rw [List.mem_flatMap]
  constructor
  · rintro ⟨rk, hrk, hin⟩
    have hmR := (mem_rangeBy_of_mono (hr.monoToInRev n)).mp hrk
    have hto : rk.1.to_in = n := Nat.compare_eq_eq.mp hmR.2
    rw [List.mem_map] at hin
    obtain ⟨kv, hkv, hmap⟩ := hin
    have hmF := (mem_rangeBy_of_mono (hf.monoCmp (LinkKey.swap rk.1))).mp hkv
    have hkey : kv.1 = LinkKey.swap rk.1 := lkCmp_eq_iff.mp hmF.2
    have hfo : rk.1.from_out = m := congrArg Prod.fst hmap
    have hsnd : kv.2 = li := congrArg Prod.snd hmap
    have hkey2 : kv.1 = LinkKey.mk n m := by
      rw [hkey]
      unfold LinkKey.swap
      rw [hto, hfo]
    have : kv = (LinkKey.mk n m, li) := by
      obtain ⟨k, v⟩ := kv
      simp only at hkey2 hsnd
      rw [hkey2, hsnd]
    rw [← this]
    exact hmF.1
  · intro hmem
    obtain ⟨rk, hrkmem, hrkey⟩ := har (LinkKey.mk n m, li) hmem
    have hrkey2 : rk.1 = LinkKey.mk m n := hrkey
    refine ⟨rk, ?_, ?_⟩
    · refine (mem_rangeBy_of_mono (hr.monoToInRev n)).mpr ⟨hrkmem, ?_⟩
      rw [hrkey2]
      exact Nat.compare_eq_eq.mpr rfl
    · rw [List.mem_map]
      refine ⟨(LinkKey.mk n m, li), ?_, ?_⟩
      · refine (mem_rangeBy_of_mono (hf.monoCmp _)).mpr ⟨hmem, ?_⟩
        rw [hrkey2]
        exact lkCmp_eq_iff.mpr rfl
      · rw [hrkey2]

theorem mem_nodeInputs_edge {g : Graph} (hs : FwdSorted g.links.fwd)
    {n : Nat} {x : Nat × Nat × Nat} (hx : x ∈ g.nodeInputs n) :
    Edge g x.1 n := by
  unfold Graph.nodeInputs at hx
  rw [List.mem_map] at hx
  obtain ⟨p, hp, hmap⟩ := hx
  have hp2 : (p.1, p.2) ∈ g.links.getIns n := by
    rw [Prod.mk.eta]; exact hp
  have := (mem_getIns_iff hs).mp hp2
  refine ⟨(LinkKey.mk p.1 n, p.2), this, ?_, rfl⟩
  rw [← hmap]

theorem edge_mem_nodeInputs {g : Graph} (hs : FwdSorted g.links.fwd)
    {n u : Nat} (h : Edge g u n) : ∃ x ∈ g.nodeInputs n, x.1 = u := by
  obtain ⟨kv, hkv, hfo, hto⟩ := h
  have hk : kv.1 = LinkKey.mk u n := linkKey_eq_mk_iff.mpr ⟨hfo, hto⟩
  have hmem : (u, kv.2) ∈ g.links.getIns n := by
    rw [mem_getIns_iff hs]
    have : kv = (LinkKey.mk u n, kv.2) := by
      obtain ⟨k, v⟩ := kv
      simp only at hk
      rw [hk]
    rw [← this]
    exact hkv
  unfold Graph.nodeInputs
  exact ⟨(u, kv.2.out_prop, kv.2.in_prop), List.mem_map.mpr ⟨_, hmem, rfl⟩, rfl⟩

theorem mem_nodeOutputs_edge {g : Graph} (hWf : g.Wf) {n : Nat}
    {x : Nat × Nat × Nat} (hx : x ∈ g.nodeOutputs n) : Edge g n x.1 := by
  obtain ⟨hf, hr, _, har⟩ := hWf
  unfold Graph.nodeOutputs at hx
  rw [List.mem_map] at hx
  obtain ⟨p, hp, hmap⟩ := hx
  have hp2 : (p.1, p.2) ∈ g.links.getOuts n := by
    rw [Prod.mk.eta]; exact hp
  have := (mem_getOuts_iff hf hr har).mp hp2
  refine ⟨(LinkKey.mk n p.1, p.2), this, rfl, ?_⟩
  rw [← hmap]

theorem edge_mem_nodeOutputs {g : Graph} (hWf : g.Wf) {n m : Nat}
    (h : Edge g n m) : ∃ x ∈ g.nodeOutputs n, x.1 = m := by
  obtain ⟨hf, hr, _, har⟩ := hWf
  obtain ⟨kv, hkv, hfo, hto⟩ := h
  have hk : kv.1 = LinkKey.mk n m := linkKey_eq_mk_iff.mpr ⟨hfo, hto⟩
  have hmem : (m, kv.2) ∈ g.links.getOuts n := by
    rw [mem_getOuts_iff hf hr har]
    have : kv = (LinkKey.mk n m, kv.2) := by
      obtain ⟨k, v⟩ := kv
      simp only at hk
      rw [hk]
    rw [← this]
    exact hkv
  unfold Graph.nodeOutputs
  exact ⟨(m, kv.2.out_prop, kv.2.in_prop), List.mem_map.mpr ⟨_, hmem, rfl⟩, rfl⟩

/-! ## Key-set lemmas for `Nat`-keyed `BSMap`s -/

theorem containsKey_iff {V : Type} {l : List (Nat × V)} {k : Nat} :
    BSMap.containsKey compare k l = true ↔ k ∈ keys l := by
  unfold BSMap.containsKey keys
  rw [List.any_eq_true]
  constructor
  · rintro ⟨kv, hkv, hbeq⟩
    have hc := ordBeq_iff.mp hbeq
    have := Nat.compare_eq_eq.mp hc
    exact List.mem_map.mpr ⟨kv, hkv, this⟩
  · intro hm
    obtain ⟨kv, hkv, rfl⟩ := List.mem_map.mp hm
    exact ⟨kv, hkv, ordBeq_iff.mpr (Nat.compare_eq_eq.mpr rfl)⟩

theorem lowerBound_le_length {K V : Type} (f : K → Ordering)
    (l : List (K × V)) : BSMap.lowerBound f l ≤ l.length :=
  (List.takeWhile_sublist _).length_le

theorem set_get?_eq_self {A : Type} {l : List A} {i : Nat} {a : A}
    (h : l.get? i = some a) : l.set i a = l := by
  induction l generalizing i with
  | nil => cases h
  | cons x l ih =>
    cases i with
    | zero =>
      rw [List.get?_cons_zero] at h
      cases h
      rfl
    | succ i =>
      rw [List.get?_cons_succ] at h
      rw [List.set_cons_succ, ih h]

theorem insertIdx_append_length {A : Type} (l1 l2 : List A) (x : A) :
    (l1 ++ l2).insertIdx l1.length x = l1 ++ x :: l2 := by
  induction l1 with
  | nil => rfl
  | cons a l ih => simp [List.insertIdx_succ_cons, ih]

theorem NatSorted.keys_nodup {V : Type} {l : List (Nat × V)}
    (h : NatSorted l) : (keys l).Nodup := by
  unfold keys
  exact (List.pairwise_map.mpr h).imp Nat.ne_of_lt

/-- On a `Nat`-keyed map, `insert` leaves the key set as the old keys plus
the new key. -/
theorem mem_keys_insertS {V : Type} {l : List (Nat × V)} {k x : Nat} {v : V} :
    x ∈ keys (BSMap.insertS compare k v l) ↔ x = k ∨ x ∈ keys l := by
  unfold BSMap.insertS
  have hle := lowerBound_le_length (fun probe : Nat => compare probe k) l
  cases hg : l.get? (BSMap.lowerBound (fun probe => compare probe k) l) with
  | none =>
    simp only [hg, keys, List.mem_map]
    constructor
    · rintro ⟨kv, hkv, rfl⟩
      rcases (List.mem_insertIdx hle).mp hkv with rfl | hold
      · exact Or.inl rfl
      · exact Or.inr ⟨kv, hold, rfl⟩
    · rintro (rfl | ⟨kv, hkv, rfl⟩)
      · exact ⟨(x, v), (List.mem_insertIdx hle).mpr (Or.inl rfl), rfl⟩
      · exact ⟨kv, (List.mem_insertIdx hle).mpr (Or.inr hkv), rfl⟩
  | some kv =>
    simp only [hg]
    by_cases hc : (compare kv.1 k == Ordering.eq) = true
    · rw [if_pos hc]
      have hkvk : kv.1 = k := Nat.compare_eq_eq.mp (ordBeq_iff.mp hc)
      have hkmem : k ∈ keys l := by
        have : kv ∈ l := List.get?_mem hg
        exact List.mem_map.mpr ⟨kv, this, hkvk⟩
      have hkeys : keys (l.set (BSMap.lowerBound (fun probe => compare probe k) l)
          (k, v)) = keys l := by
        unfold keys
        rw [List.map_set]
        apply set_get?_eq_self
        rw [List.get?_map, hg]
        simp [hkvk]
      rw [hkeys]
      exact ⟨Or.inr, fun h => h.elim (fun hx => hx ▸ hkmem) id⟩
    · rw [if_neg hc]
      simp only [keys, List.mem_map]
      constructor
      · rintro ⟨kv2, hkv2, rfl⟩
        rcases (List.mem_insertIdx hle).mp hkv2 with rfl | hold
        · exact Or.inl rfl
        · exact Or.inr ⟨kv2, hold, rfl⟩
      · rintro (rfl | ⟨kv2, hkv2, rfl⟩)
        · exact ⟨(x, v), (List.mem_insertIdx hle).mpr (Or.inl rfl), rfl⟩
        · exact ⟨kv2, (List.mem_insertIdx hle).mpr (Or.inr hkv2), rfl⟩

/-! ## Fresh-id lemmas for `add_node` (claim C3) -/

theorem natSorted_key_le_getLast {V : Type} :
    ∀ {l : List (Nat × V)} {klast : Nat × V}, NatSorted l →
      l.getLast? = some klast → ∀ kv ∈ l, kv.1 ≤ klast.1 := by
  intro l
  induction l with
  | nil => intro klast _ h; cases h
  | cons a rest ih =>
    intro klast hs hlast kv hkv
    have hpw := List.pairwise_cons.mp hs
    cases rest with
    | nil =>
      simp only [List.getLast?_singleton, Option.some.injEq] at hlast
      rcases List.mem_singleton.mp hkv with rfl
      rw [hlast]
    | cons b rest2 =>
      have hlast2 : (b :: rest2).getLast? = some klast := by
        rw [List.getLast?_cons_cons] at hlast; exact hlast
      have hkm : klast ∈ b :: rest2 := List.mem_of_mem_getLast? hlast2
      rcases List.mem_cons.mp hkv with rfl | hkv2
      · exact Nat.le_of_lt (hpw.1 klast hkm)
      · exact ih hpw.2 hlast2 kv hkv2

theorem insertS_append_of_gt {V : Type} {l : List (Nat × V)} {k : Nat} {v : V}
    (h : ∀ kv ∈ l, kv.1 < k) :
    BSMap.insertS compare k v l = l ++ [(k, v)] := by
  unfold BSMap.insertS BSMap.lowerBound
  have htw : (l.takeWhile fun kv => compare kv.1 k == Ordering.lt) = l :=
    List.takeWhile_eq_self_iff.mpr fun kv hkv =>
      ordBeq_iff.mpr (Nat.compare_eq_lt.mpr (h kv hkv))
  rw [htw]
  have hg : l.get? l.length = none := List.get?_eq_none.mpr (Nat.le_refl _)
  rw [hg]
  exact List.insertIdx_length_self l (k, v)

theorem addNode_spec {g : Graph} {n : Node} {g2 : Graph} {r : Nat}
    (hs : NatSorted g.nodes) (h : g.addNode n = some (g2, r)) :
    (∀ k ∈ keys g.nodes, k < r) ∧ NatSorted g2.nodes ∧
      keys g2.nodes = keys g.nodes ++ [r] := by
  unfold Graph.addNode at h
  split at h
  · cases h
  · rename_i node_ref heq
    simp only [Option.some.injEq, Prod.mk.injEq] at h
    obtain ⟨hg2, rfl⟩ := h
    have hfresh : ∀ k ∈ keys g.nodes, k < node_ref := by
      split at heq
      · rename_i hgl
        have hnil : g.nodes = [] := by
          unfold BSMap.greatestKey at hgl
          cases hl : g.nodes.getLast? with
          | none => exact List.getLast?_eq_none_iff.mp hl
          | some kv => rw [hl] at hgl; cases hgl
        intro k hk
        rw [hnil] at hk
        cases hk
      · rename_i klast hgl
        split at heq
        · rename_i hovf
          cases heq
          intro k hk
          obtain ⟨kv, hkv, rfl⟩ := List.mem_map.mp hk
          have hle : kv.1 ≤ klast := by
            unfold BSMap.greatestKey at hgl
            cases hl : g.nodes.getLast? with
            | none => rw [hl] at hgl; cases hgl
            | some kvl =>
              rw [hl] at hgl
              have hgl2 : kvl.1 = klast := by
                have h3 : some kvl.1 = some klast := hgl
                exact Option.some.inj h3
              have := natSorted_key_le_getLast hs hl kv hkv
              omega
          omega
        · cases heq
    have hlt : ∀ kv ∈ g.nodes, kv.1 < node_ref := by
      intro kv hkv
      exact hfresh kv.1 (List.mem_map.mpr ⟨kv, hkv, rfl⟩)
    have hins := insertS_append_of_gt (l := g.nodes) (v := n) hlt
    refine ⟨hfresh, ?_, ?_⟩
    · rw [← hg2]
      show NatSorted (BSMap.insertS compare node_ref n g.nodes)
      rw [hins]
      unfold NatSorted
      rw [List.pairwise_append]
      refine ⟨hs, List.pairwise_singleton _ _, ?_⟩
      intro a ha b hb
      rcases List.mem_singleton.mp hb with rfl
      exact hlt a ha
    · rw [← hg2]
      show keys (BSMap.insertS compare node_ref n g.nodes) =
        keys g.nodes ++ [node_ref]
      rw [hins]
      unfold keys
      rw [List.map_append]
      rfl

theorem addNodes_spec {ns : List Node} :
    ∀ {g g2 : Graph} {rs : List Nat}, NatSorted g.nodes →
      addNodes g ns = some (g2, rs) →
      NatSorted g2.nodes ∧ rs.Pairwise (· < ·) ∧
        (∀ x ∈ rs, ∀ k ∈ keys g.nodes, k < x) ∧
        (∀ k ∈ keys g.nodes, k ∈ keys g2.nodes) := by
  induction ns with
  | nil =>
    intro g g2 rs hs h
    unfold addNodes at h
    simp only [Option.some.injEq, Prod.mk.injEq] at h
    obtain ⟨rfl, rfl⟩ := h
    exact ⟨hs, List.Pairwise.nil, fun x hx => absurd hx (List.not_mem_nil x),
      fun k hk => hk⟩
  | cons n rest ih =>
    intro g g2 rs hs h
    unfold addNodes at h
    split at h
    · cases h
    · rename_i ga r ha
      split at h
      · cases h
      · rename_i gb rs2 hrest
        simp only [Option.some.injEq, Prod.mk.injEq] at h
        obtain ⟨rfl, rfl⟩ := h
        obtain ⟨hfresh, hsorted, hkeys⟩ := addNode_spec hs ha
        obtain ⟨hsorted2, hpw2, hgt2, hmono2⟩ := ih hsorted hrest
        have hrkeys : r ∈ keys ga.nodes := by
          rw [hkeys]; exact List.mem_append.mpr (Or.inr (by simp))
        refine ⟨hsorted2, ?_, ?_, ?_⟩
        · rw [List.pairwise_cons]
          exact ⟨fun x hx => hgt2 x hx r hrkeys, hpw2⟩
        · intro x hx k hk
          rcases List.mem_cons.mp hx with rfl | hx2
          · exact hfresh k hk
          · exact hgt2 x hx2 k (by rw [hkeys]; exact List.mem_append.mpr (Or.inl hk))
        · intro k hk
          exact hmono2 k (by rw [hkeys]; exact List.mem_append.mpr (Or.inl hk))

/-! ## No-op re-insertion lemmas (claim C8) -/

theorem insertS_cons_of_lt {K V : Type} {cmp : K → K → Ordering} {a : K × V}
    {l : List (K × V)} {k : K} {v : V} (h : cmp a.1 k = Ordering.lt) :
    BSMap.insertS cmp k v (a :: l) = a :: BSMap.insertS cmp k v l := by
  unfold BSMap.insertS BSMap.lowerBound
  rw [List.takeWhile_cons,
    if_pos (show ((fun probe => cmp probe k) a.1 == Ordering.lt) = true by
      show (cmp a.1 k == Ordering.lt) = true
      rw [h]; rfl)]
  simp only [List.length_cons, List.get?_cons_succ]
  cases hg : l.get? (l.takeWhile fun kv => cmp kv.1 k == Ordering.lt).length with
  | none => simp [List.insertIdx_succ_cons]
  | some kv =>
    by_cases hc : (cmp kv.1 k == Ordering.eq) = true
    · simp [hc, List.set_cons_succ]
    · simp [hc, List.insertIdx_succ_cons]

theorem insertS_unit_eq_self_of_mem {l : List (LinkKey × Unit)} {k : LinkKey}
    (hr : RevSorted l) (hmem : (k, ()) ∈ l) :
    BSMap.insertS LinkKey.cmp k () l = l := by
  induction l with
  | nil => cases hmem
  | cons a rest ih =>
    have hpw := List.pairwise_cons.mp hr
    cases hcak : LinkKey.cmp a.1 k with
    | lt =>
      rw [insertS_cons_of_lt hcak]
      have hane : (k, ()) ≠ a := by
        intro hh
        rw [← hh] at hcak
        have : LinkKey.cmp k k = Ordering.eq := lkCmp_eq_iff.mpr rfl
        rw [this] at hcak
        cases hcak
      have hmem2 : (k, ()) ∈ rest := by
        rcases List.mem_cons.mp hmem with hh | hh
        · exact absurd hh hane
        · exact hh
      rw [ih hpw.2 hmem2]
    | eq =>
      have hak : a.1 = k := lkCmp_eq_iff.mp hcak
      have ha : a = (k, ()) := by
        obtain ⟨a1, u⟩ := a
        cases u
        simp only at hak
        rw [hak]
      unfold BSMap.insertS BSMap.lowerBound
      rw [List.takeWhile_cons,
        if_neg (show ¬((fun probe => LinkKey.cmp probe k) a.1 ==
            Ordering.lt) = true by
          show ¬(LinkKey.cmp a.1 k == Ordering.lt) = true
          rw [hcak]
          decide)]
      simp only [List.length_nil, List.get?_cons_zero]
      rw [if_pos (show (LinkKey.cmp a.1 k == Ordering.eq) = true by
        rw [hcak]; rfl)]
      rw [List.set_cons_zero, ha]
    | gt =>
      exfalso
      rcases List.mem_cons.mp hmem with hh | hh
      · rw [← hh] at hcak
        have : LinkKey.cmp k k = Ordering.eq := lkCmp_eq_iff.mpr rfl
        rw [this] at hcak
        cases hcak
      · have hlt := hpw.1 _ hh
        rw [hlt] at hcak
        cases hcak

theorem insertValue_eq_self_of_mem {l : List (LinkKey × Link)} {k : LinkKey}
    {li : Link} (hf : FwdSorted l) (hmem : (k, li) ∈ l) :
    BSMap.insertValue LinkKey.cmp k li l = l := by
  unfold BSMap.insertValue
  rw [if_pos]
  unfold BSMap.containsEntry
  rw [List.any_eq_true]
  refine ⟨(k, li), ?_, by simp⟩
  exact (mem_rangeBy_of_mono (hf.monoCmp k)).mpr ⟨hmem, lkCmp_eq_iff.mpr rfl⟩

/-! ## Claims -/

/-- **C3 counterexample**: for the operation sequence `add_node`, `add_node`,
`remove_node` (of the second node), `add_node`, the second and fourth
`add_node` calls return the same `NodeRef` `2` — ids *are* reused once the
greatest-id node is removed, because the next id is computed as
`greatest_key + 1`. -/
theorem c3_id_reuse_counterexample : idReuseRefs = some (2, 2) := by rfl

/-- **C3 (amended)**: in any sequence of `add_node` operations *without*
`remove_node`, the returned refs are strictly increasing (hence each is
distinct from every earlier one); ids are fresh relative to all node keys
present when the sequence starts. -/
theorem c3_addNode_refs_strictly_increase (g : Graph) (ns : List Node)
    (g2 : Graph) (rs : List Nat) (hs : NatSorted g.nodes)
    (h : addNodes g ns = some (g2, rs)) :
    rs.Pairwise (· < ·) ∧ rs.Nodup ∧
      (∀ x ∈ rs, ∀ k ∈ keys g.nodes, k < x) := by
  obtain ⟨_, hpw, hgt, _⟩ := addNodes_spec hs h
  exact ⟨hpw, hpw.imp Nat.ne_of_lt, hgt⟩

/-- Witness for C3: adding three nodes to the empty graph returns refs
`[1, 2, 3]`, pairwise increasing and fresh. -/
theorem c3_witness :
    (NatSorted Graph.new.nodes ∧
      addNodes Graph.new [Node.empty "a", Node.empty "b", Node.empty "c"] =
        some (threeG, [1, 2, 3])) ∧
    (([1, 2, 3] : List Nat).Pairwise (· < ·) ∧ ([1, 2, 3] : List Nat).Nodup ∧
      ∀ x ∈ ([1, 2, 3] : List Nat), ∀ k ∈ keys Graph.new.nodes, k < x) :=
  ⟨⟨by decide, by rfl⟩,
    c3_addNode_refs_strictly_increase Graph.new
      [Node.empty "a", Node.empty "b", Node.empty "c"] threeG [1, 2, 3]
      (by decide) (by rfl)⟩

/-- **C6** (code-bug evaluation): after `link(1,0,2,0)`, `link(1,0,3,0)`,
`unlink(1,0,3,0)`, the reverse index still contains the key `(2,1)` (claiming
a link `1→2` exists) while the forward index contains no link with key
`(1,2)`: the two indices disagree in membership.  `BSMap::remove_value`
computed the match position relative to the skipped iterator but removed at
that absolute index, deleting link `1→2` instead of `1→3`. -/
theorem c6_link_indices_disagree :
    unlinkMisRemove.map (fun g =>
      (BSMap.containsKey LinkKey.cmp (LinkKey.mk 2 1) g.links.rev,
       BSMap.containsKey LinkKey.cmp (LinkKey.mk 1 2) g.links.fwd)) =
    some (true, false) := by rfl

/-- **C7** (code-bug evaluation): after `remove_node 3` on the graph with
links `1→2` and `1→3`, node `3` is gone but the forward index still contains
the link `1→3` incident to it (the same `remove_value` index bug removed
`1→2` instead). -/
theorem c7_remove_node_leaves_incident_link :
    removeNodeMisRemove.map (fun g => (g.node 3, g.links.fwd)) =
    some (none, [(LinkKey.mk 1 3, Link.mk 0 0)]) := by rfl

/-- **C8**: calling `link(a, p, b, q)` when the identical link already exists
leaves the link indices completely unchanged (the only effect of `link` is
invalidating the cached order), so the link set and the link count are
unchanged. -/
theorem c8_relink_identical_noop (g : Graph) (a p b q : Nat) (hWf : g.Wf)
    (hmem : (LinkKey.mk a b, Link.mk p q) ∈ g.links.fwd) :
    g.link a p b q = { g with order := none } := by
  obtain ⟨hf, hr, hra, har⟩ := hWf
  unfold Graph.link Links.insert
  have h1 : BSMap.insertValue LinkKey.cmp (LinkKey.mk a b) (Link.mk p q)
      g.links.fwd = g.links.fwd := insertValue_eq_self_of_mem hf hmem
  obtain ⟨kv2, hkv2, hkey⟩ := har _ hmem
  have hmem2 : (LinkKey.swap (LinkKey.mk a b), ()) ∈ g.links.rev := by
    have hkv2eq : kv2 = (LinkKey.swap (LinkKey.mk a b), ()) := by
      obtain ⟨kk, u⟩ := kv2
      cases u
      simp only at hkey
      rw [hkey]
    rw [← hkv2eq]
    exact hkv2
  have h2 := insertS_unit_eq_self_of_mem hr hmem2
  simp only [h1, h2]

/-- Witness for C8 on the two-node graph with link `1→2`. -/
theorem c8_witness :
    linkedPairG.Wf ∧ (LinkKey.mk 1 2, Link.mk 0 0) ∈ linkedPairG.links.fwd ∧
      linkedPairG.link 1 0 2 0 = { linkedPairG with order := none } :=
  ⟨by decide, by decide,
    c8_relink_identical_noop linkedPairG 1 0 2 0 (by decide) (by decide)⟩

/-- **C10**: `node_mut` on a `NodeRef` absent from the graph returns `none`
for the lookup, yet inserts the ref into the dirty set, so `is_dirty` is true
afterwards: the dirty set can reference nodes that do not exist, and the
failed lookup is not atomic. -/
theorem c10_nodeMut_dirties_missing_ref (g : Graph) (r : Nat)
    (h : r ∉ keys g.nodes) :
    (g.nodeMut r).1 = none ∧ (g.nodeMut r).2.isDirty r = true := by
  refine ⟨?_, ?_⟩
  · unfold Graph.nodeMut BSMap.getS
    simp only
    have hfind : g.nodes.find? (fun kv => compare kv.1 r == Ordering.eq)
        = none := by
      rw [List.find?_eq_none]
      intro kv hkv hc
      exact h (List.mem_map.mpr ⟨kv, hkv, Nat.compare_eq_eq.mp (ordBeq_iff.mp hc)⟩)
    rw [hfind]
    rfl
  · unfold Graph.nodeMut Graph.isDirty
    simp only
    rw [containsKey_iff]
    exact mem_keys_insertS.mpr (Or.inl rfl)

/-- Witness for C10: ref `7` is absent from the chain graph. -/
theorem c10_witness :
    (7 : Nat) ∉ keys chainG.nodes ∧
      (chainG.nodeMut 7).1 = none ∧ (chainG.nodeMut 7).2.isDirty 7 = true :=
  ⟨by decide, c10_nodeMut_dirties_missing_ref chainG 7 (by decide)⟩

/-! ## Cache-invalidation lemmas (claims C2, C9) -/

theorem outEdge_iff_edge {g : Graph} (hWf : g.Wf) {n m : Nat} :
    OutEdge g n m ↔ Edge g n m := by
  constructor
  · rintro ⟨x, hx, rfl⟩
    exact mem_nodeOutputs_edge hWf hx
  · intro h
    exact edge_mem_nodeOutputs hWf h

theorem transGen_outEdge_iff_edge {g : Graph} (hWf : g.Wf) {n m : Nat} :
    Relation.TransGen (OutEdge g) n m ↔ Relation.TransGen (Edge g) n m :=
  ⟨fun h => h.mono fun _ _ hx => (outEdge_iff_edge hWf).mp hx,
   fun h => h.mono fun _ _ hx => (outEdge_iff_edge hWf).mpr hx⟩

namespace Renderer

variable {V : Type} [DecidableEq V]

theorem lookup_removeCache_self (c : Cache V) (n : Nat) :
    lookupCache (removeCache c n) n = none := by
  unfold lookupCache removeCache
  rw [List.find?_eq_none.mpr]
  · rfl
  · intro kv hkv
    have := List.of_mem_filter hkv
    simp only [decide_eq_true_eq] at this
    simp [this]

theorem lookup_removeCache_ne (c : Cache V) {n m : Nat} (h : m ≠ n) :
    lookupCache (removeCache c n) m = lookupCache c m := by
  unfold lookupCache removeCache
  congr 1
  induction c with
  | nil => rfl
  | cons kv rest ih =>
    by_cases hkvn : kv.1 = n
    · have hnm : ¬(kv.1 == m) = true := by
        simp only [beq_iff_eq, hkvn]
        exact fun hh => h hh.symm
      have e0 : List.find? (fun kv => kv.1 == m) (kv :: rest) =
          List.find? (fun kv => kv.1 == m) rest :=
        List.find?_cons_of_neg _ hnm
      rw [List.filter_cons_of_neg (by simp [hkvn]), ih, e0]
    · rw [List.filter_cons_of_pos (by simp [hkvn])]
      by_cases hkvm : (kv.1 == m) = true
      · have e1 : List.find? (fun kv => kv.1 == m)
            (kv :: List.filter (fun kv => decide (kv.1 ≠ n)) rest) = some kv :=
          List.find?_cons_of_pos _ hkvm
        have e2 : List.find? (fun kv => kv.1 == m) (kv :: rest) = some kv :=
          List.find?_cons_of_pos _ hkvm
        rw [e1, e2]
      · have e1 : List.find? (fun kv => kv.1 == m)
            (kv :: List.filter (fun kv => decide (kv.1 ≠ n)) rest) =
            List.find? (fun kv => kv.1 == m)
              (List.filter (fun kv => decide (kv.1 ≠ n)) rest) :=
          List.find?_cons_of_neg _ hkvm
        have e2 : List.find? (fun kv => kv.1 == m) (kv :: rest) =
            List.find? (fun kv => kv.1 == m) rest :=
          List.find?_cons_of_neg _ hkvm
        rw [e1, e2, ih]

theorem lookup_insertCache_self (c : Cache V) (n : Nat) (v : V) :
    lookupCache (insertCache c n v) n = some v := by
  unfold lookupCache insertCache
  rw [List.find?_cons_of_pos _ (by simp)]
  rfl

theorem lookup_insertCache_ne (c : Cache V) {n m : Nat} (v : V) (h : m ≠ n) :
    lookupCache (insertCache c n v) m = lookupCache c m := by
  have hx : ¬(((n, v) : Nat × V).1 == m) = true := by
    simp only [beq_iff_eq]
    exact fun hh => h hh.symm
  unfold insertCache
  show lookupCache ((n, v) :: removeCache c n) m = lookupCache c m
  unfold lookupCache
  have e1 : List.find? (fun kv => kv.1 == m) ((n, v) :: removeCache c n) =
      List.find? (fun kv => kv.1 == m) (removeCache c n) :=
    List.find?_cons_of_neg _ hx
  rw [e1]
  exact lookup_removeCache_ne c h

/-- Every `rec` call made by `invalidateList` succeeds when the whole list
does. -/
theorem invalidateList_sub_calls
    {rec : Nat → Cache V → Option (Cache V)}
    {outs : List (Nat × Nat × Nat)} {c c2 : Cache V}
    (h : invalidateList rec outs c = some c2) :
    ∀ x ∈ outs, ∃ c3 c4, rec x.1 c3 = some c4 := by
  induction outs generalizing c with
  | nil => intro x hx; cases hx
  | cons y rest ih =>
    obtain ⟨m, pr⟩ := y
    simp only [invalidateList] at h
    split at h
    · cases h
    · rename_i c3 hc3
      intro x hx
      rcases List.mem_cons.mp hx with rfl | hx2
      · exact ⟨removeCache c m, c3, hc3⟩
      · exact ih h x hx2

/-- `invalidateList` only removes entries: absent keys stay absent. -/
theorem invalidateList_none_pres
    {rec : Nat → Cache V → Option (Cache V)}
    (hrec : ∀ n c c2, rec n c = some c2 →
      ∀ m, lookupCache c m = none → lookupCache c2 m = none)
    {outs : List (Nat × Nat × Nat)} {c c2 : Cache V}
    (h : invalidateList rec outs c = some c2) :
    ∀ m, lookupCache c m = none → lookupCache c2 m = none := by
  induction outs generalizing c with
  | nil =>
    simp only [invalidateList, Option.some.injEq] at h
    subst h
    exact fun m hm => hm
  | cons y rest ih =>
    obtain ⟨n1, pr⟩ := y
    simp only [invalidateList] at h
    split at h
    · cases h
    · rename_i c3 hc3
      intro m hm
      have h1 : lookupCache (removeCache c n1) m = none := by
        by_cases hmn : m = n1
        · subst hmn; exact lookup_removeCache_self c m
        · rw [lookup_removeCache_ne c hmn]; exact hm
      exact ih h m (hrec n1 _ _ hc3 m h1)

/-- `propagate_cache_invalidation` only removes entries. -/
theorem propagate_none_pres (g : Graph) :
    ∀ (fuel : Nat) (node : Nat) (c c2 : Cache V),
      propagateCacheInvalidation g fuel node c = some c2 →
      ∀ m, lookupCache c m = none → lookupCache c2 m = none := by
  intro fuel
  induction fuel with
  | zero => intro node c c2 h; cases h
  | succ fuel ih =>
    intro node c c2 h
    simp only [propagateCacheInvalidation] at h
    exact invalidateList_none_pres (fun n c c2 hc => ih n c c2 hc) h

/-- `invalidateList` removes the entry of every listed destination and every
`rec`-downstream node of one, and these removals persist. -/
theorem invalidateList_down
    {rec : Nat → Cache V → Option (Cache V)} {P : Nat → Nat → Prop}
    (hrecNone : ∀ n c c2, rec n c = some c2 →
      ∀ m, lookupCache c m = none → lookupCache c2 m = none)
    (hrecDown : ∀ n c c2, rec n c = some c2 →
      ∀ m, P n m → lookupCache c2 m = none)
    {outs : List (Nat × Nat × Nat)} {c c2 : Cache V}
    (h : invalidateList rec outs c = some c2) :
    ∀ x ∈ outs, lookupCache c2 x.1 = none ∧
      ∀ m, P x.1 m → lookupCache c2 m = none := by
  induction outs generalizing c with
  | nil => intro x hx; cases hx
  | cons y rest ih =>
    obtain ⟨n1, pr⟩ := y
    simp only [invalidateList] at h
    split at h
    · cases h
    · rename_i c3 hc3
      intro x hx
      rcases List.mem_cons.mp hx with rfl | hx2
      · constructor
        · refine invalidateList_none_pres hrecNone h _ ?_
          refine hrecNone _ _ _ hc3 _ ?_
          exact lookup_removeCache_self c n1
        · intro m hm
          exact invalidateList_none_pres hrecNone h _ (hrecDown _ _ _ hc3 m hm)
      · exact ih h x hx2

/-- Every transitive `OutEdge`-successor of `node` is absent from the cache
after a successful `propagate_cache_invalidation`. -/
theorem propagate_down (g : Graph) :
    ∀ (fuel : Nat) (node : Nat) (c c2 : Cache V),
      propagateCacheInvalidation g fuel node c = some c2 →
      ∀ m, Relation.TransGen (OutEdge g) node m → lookupCache c2 m = none := by
  intro fuel
  induction fuel with
  | zero => intro node c c2 h; cases h
  | succ fuel ih =>
    intro node c c2 h m hm
    simp only [propagateCacheInvalidation] at h
    obtain ⟨y, hy1, hy2⟩ := Relation.TransGen.head'_iff.mp hm
    obtain ⟨x, hxouts, hxy⟩ := hy1
    have hdown := invalidateList_down (P := Relation.TransGen (OutEdge g))
      (fun n c c2 hc => propagate_none_pres g fuel n c c2 hc)
      (fun n c c2 hc => ih n c c2 hc) h x hxouts
    rcases Relation.reflTransGen_iff_eq_or_transGen.mp hy2 with rfl | htg
    · rw [← hxy]
      exact hdown.1
    · rw [← hxy] at htg
      exact hdown.2 m htg

/-- `invalidateList` changes only listed destinations and their
`rec`-downstream nodes, and every change is a removal. -/
theorem invalidateList_sound
    {rec : Nat → Cache V → Option (Cache V)} {P : Nat → Nat → Prop}
    (hrec : ∀ n c c2, rec n c = some c2 →
      ∀ m, lookupCache c2 m = lookupCache c m ∨
        (lookupCache c2 m = none ∧ P n m)) :
    ∀ {outs : List (Nat × Nat × Nat)} {c c2 : Cache V},
      invalidateList rec outs c = some c2 →
      ∀ m, lookupCache c2 m = lookupCache c m ∨
        (lookupCache c2 m = none ∧ ∃ x ∈ outs, x.1 = m ∨ P x.1 m) := by
  intro outs
  induction outs with
  | nil =>
    intro c c2 h m
    simp only [invalidateList, Option.some.injEq] at h
    subst h
    exact Or.inl rfl
  | cons y rest ih =>
    intro c c2 h m
    obtain ⟨n1, pr⟩ := y
    simp only [invalidateList] at h
    split at h
    · cases h
    · rename_i c3 hc3
      rcases ih h m with heq | ⟨hnone, x, hx, hor⟩
      · rcases hrec _ _ _ hc3 m with heq2 | ⟨hnone2, hP⟩
        · by_cases hmn : m = n1
          · subst hmn
            right
            refine ⟨?_, (m, pr), by simp, Or.inl rfl⟩
            rw [heq, heq2]
            exact lookup_removeCache_self c m
          · left
            rw [heq, heq2, lookup_removeCache_ne c hmn]
        · right
          exact ⟨heq.trans hnone2, (n1, pr), by simp, Or.inr hP⟩
      · right
        exact ⟨hnone, x, List.mem_cons_of_mem _ hx, hor⟩

/-- `propagate_cache_invalidation` changes only transitive
`OutEdge`-successors of the start node, and every change is a removal. -/
theorem propagate_sound (g : Graph) :
    ∀ (fuel node : Nat) (c c2 : Cache V),
      propagateCacheInvalidation g fuel node c = some c2 →
      ∀ m, lookupCache c2 m = lookupCache c m ∨
        (lookupCache c2 m = none ∧ Relation.TransGen (OutEdge g) node m) := by
  intro fuel
  induction fuel with
  | zero => intro node c c2 h; cases h
  | succ fuel ih =>
    intro node c c2 h m
    simp only [propagateCacheInvalidation] at h
    rcases invalidateList_sound (fun n c c2 hc => ih n c c2 hc) h m with
      heq | ⟨hnone, x, hx, hor⟩
    · exact Or.inl heq
    · right
      refine ⟨hnone, ?_⟩
      rcases hor with rfl | hP
      · exact Relation.TransGen.single ⟨x, hx, rfl⟩
      · exact Relation.TransGen.head ⟨x, hx, rfl⟩ hP

/-- A successful `propagate_cache_invalidation` run implies its start node is
not on a link cycle (otherwise the recursion would have exhausted any finite
depth). -/
theorem propagate_no_self_cycle (g : Graph) :
    ∀ (fuel node : Nat) (c c2 : Cache V),
      propagateCacheInvalidation g fuel node c = some c2 →
      ¬ Relation.TransGen (OutEdge g) node node := by
  intro fuel
  induction fuel with
  | zero => intro node c c2 h; cases h
  | succ fuel ih =>
    intro node c c2 h hcyc
    simp only [propagateCacheInvalidation] at h
    obtain ⟨y, hy1, hy2⟩ := Relation.TransGen.head'_iff.mp hcyc
    obtain ⟨x, hxouts, hxy⟩ := hy1
    obtain ⟨c3, c4, hrec⟩ := invalidateList_sub_calls h x hxouts
    refine ih x.1 c3 c4 hrec ?_
    rw [hxy]
    exact Relation.TransGen.tail' hy2 ⟨x, hxouts, hxy⟩

end Renderer

/-- **C2**: the `set_cache` update policy.  (1) With no existing cache entry
for `node`, the fresh output map is inserted and the entries of all
transitive downstream consumers are removed.  (2) With an existing entry that
differs from the fresh outputs, the update is rejected: the cache is returned
unchanged (stale entry retained, nothing propagated). -/
theorem c2_setCache_policy {V : Type} [DecidableEq V] (g : Graph) (hWf : g.Wf)
    (fuel : Nat) (cache : Cache V) (node : Nat) (outputs : V) :
    (Renderer.lookupCache cache node = none →
      ∀ cache2, Renderer.setCache g fuel cache node outputs = some cache2 →
        Renderer.lookupCache cache2 node = some outputs ∧
        ∀ m, Relation.TransGen (Edge g) node m →
          Renderer.lookupCache cache2 m = none) ∧
    (∀ cached, Renderer.lookupCache cache node = some cached →
      cached ≠ outputs →
      Renderer.setCache g fuel cache node outputs = some cache) := by
  constructor
  · intro hnone cache2 hset
    unfold Renderer.setCache at hset
    rw [hnone] at hset
    have hset2 : Renderer.propagateCacheInvalidation g fuel node
        (Renderer.insertCache cache node outputs) = some cache2 := hset
    have hsurv : Renderer.lookupCache cache2 node = some outputs := by
      rcases Renderer.propagate_sound g fuel node _ cache2 hset2 node with
        heq | ⟨_, hcyc⟩
      · rw [heq]
        exact Renderer.lookup_insertCache_self cache node outputs
      · exact absurd hcyc (Renderer.propagate_no_self_cycle g fuel node _ _ hset2)
    refine ⟨hsurv, fun m hm => ?_⟩
    exact Renderer.propagate_down g fuel node _ cache2 hset2 m
      ((transGen_outEdge_iff_edge hWf).mpr hm)
  · intro cached hc hne
    unfold Renderer.setCache
    rw [hc]
    show (if cached ≠ outputs then some cache
      else Renderer.propagateCacheInvalidation g fuel node
        (Renderer.insertCache cache node outputs)) = some cache
    rw [if_pos hne]

/-- Witness for C2 on the chain `1→2→3`: inserting a fresh entry for node 1
into a cache holding entries for 2 and 3 yields the cache `[(1,10)]` — the
downstream entries 2 and 3 are removed. -/
theorem c2_witness :
    (chainG.Wf ∧
      Renderer.lookupCache ([(2, 20), (3, 30)] : Cache Nat) 1 = none ∧
      Renderer.setCache chainG 5 ([(2, 20), (3, 30)] : Cache Nat) 1 10 =
        some [(1, 10)]) ∧
    (Renderer.lookupCache ([(1, 10)] : Cache Nat) 1 = some 10 ∧
      ∀ m, Relation.TransGen (Edge chainG) 1 m →
        Renderer.lookupCache ([(1, 10)] : Cache Nat) m = none) :=
  ⟨⟨by decide, by rfl, by rfl⟩,
    (c2_setCache_policy chainG (by decide) 5 ([(2, 20), (3, 30)] : Cache Nat)
      1 10).1 (by rfl) [(1, 10)] (by rfl)⟩

/-- **C9**: when `set_cache` is called with outputs *equal* to the existing
entry, the entry is re-inserted and invalidation still propagates: every
transitive downstream consumer's cache entry is removed even though the
node's output did not change. -/
theorem c9_setCache_equal_still_invalidates {V : Type} [DecidableEq V]
    (g : Graph) (hWf : g.Wf) (fuel : Nat) (cache : Cache V) (node : Nat)
    (outputs : V)
    (hcached : Renderer.lookupCache cache node = some outputs) :
    ∀ cache2, Renderer.setCache g fuel cache node outputs = some cache2 →
      Renderer.lookupCache cache2 node = some outputs ∧
      ∀ m, Relation.TransGen (Edge g) node m →
        Renderer.lookupCache cache2 m = none := by
  intro cache2 hset
  unfold Renderer.setCache at hset
  rw [hcached] at hset
  have hset1 : (if outputs ≠ outputs then some cache
      else Renderer.propagateCacheInvalidation g fuel node
        (Renderer.insertCache cache node outputs)) = some cache2 := hset
  rw [if_neg (fun hh => hh rfl)] at hset1
  have hsurv : Renderer.lookupCache cache2 node = some outputs := by
    rcases Renderer.propagate_sound g fuel node _ cache2 hset1 node with
      heq | ⟨_, hcyc⟩
    · rw [heq]
      exact Renderer.lookup_insertCache_self cache node outputs
    · exact absurd hcyc (Renderer.propagate_no_self_cycle g fuel node _ _ hset1)
  refine ⟨hsurv, fun m hm => ?_⟩
  exact Renderer.propagate_down g fuel node _ cache2 hset1 m
    ((transGen_outEdge_iff_edge hWf).mpr hm)

/-- Witness for C9 on the chain `1→2→3`: re-setting node 1's entry to its
current value still evicts the entries of nodes 2 and 3. -/
theorem c9_witness :
    (chainG.Wf ∧
      Renderer.lookupCache ([(1, 10), (2, 20), (3, 30)] : Cache Nat) 1 =
        some 10 ∧
      Renderer.setCache chainG 5 ([(1, 10), (2, 20), (3, 30)] : Cache Nat)
        1 10 = some [(1, 10)]) ∧
    (Renderer.lookupCache ([(1, 10)] : Cache Nat) 1 = some 10 ∧
      ∀ m, Relation.TransGen (Edge chainG) 1 m →
        Renderer.lookupCache ([(1, 10)] : Cache Nat) m = none) :=
  ⟨⟨by decide, by rfl, by rfl⟩,
    c9_setCache_equal_still_invalidates chainG (by decide) 5
      ([(1, 10), (2, 20), (3, 30)] : Cache Nat) 1 10 (by rfl) [(1, 10)]
      (by rfl)⟩

/-! ## Dirty-propagation lemmas (claim C5) -/

theorem insertS_cons_of_eq {K V : Type} {cmp : K → K → Ordering} {a : K × V}
    {l : List (K × V)} {k : K} {v : V} (h : cmp a.1 k = Ordering.eq) :
    BSMap.insertS cmp k v (a :: l) = (k, v) :: l := by
  unfold BSMap.insertS BSMap.lowerBound
  rw [List.takeWhile_cons,
    if_neg (show ¬((fun probe => cmp probe k) a.1 == Ordering.lt) = true by
      show ¬(cmp a.1 k == Ordering.lt) = true
      rw [h]
      decide)]
  simp only [List.length_nil, List.get?_cons_zero]
  rw [if_pos (show (cmp a.1 k == Ordering.eq) = true by rw [h]; rfl)]
  rw [List.set_cons_zero]

theorem insertS_cons_of_gt {K V : Type} {cmp : K → K → Ordering} {a : K × V}
    {l : List (K × V)} {k : K} {v : V} (h : cmp a.1 k = Ordering.gt) :
    BSMap.insertS cmp k v (a :: l) = (k, v) :: a :: l := by
  unfold BSMap.insertS BSMap.lowerBound
  rw [List.takeWhile_cons,
    if_neg (show ¬((fun probe => cmp probe k) a.1 == Ordering.lt) = true by
      show ¬(cmp a.1 k == Ordering.lt) = true
      rw [h]
      decide)]
  simp only [List.length_nil, List.get?_cons_zero]
  rw [if_neg (show ¬(cmp a.1 k == Ordering.eq) = true by rw [h]; decide)]
  rw [List.insertIdx_zero]

theorem mem_of_mem_insertS {K V : Type} {cmp : K → K → Ordering} {k : K}
    {v : V} {l : List (K × V)} {x : K × V}
    (hx : x ∈ BSMap.insertS cmp k v l) : x = (k, v) ∨ x ∈ l := by
  unfold BSMap.insertS at hx
  split at hx
  · rename_i kv hg
    split at hx
    · rcases List.mem_or_eq_of_mem_set hx with h | h
      · exact Or.inr h
      · exact Or.inl h
    · rcases (List.mem_insertIdx (lowerBound_le_length _ _)).mp hx with h | h
      · exact Or.inl h
      · exact Or.inr h
  · rcases (List.mem_insertIdx (lowerBound_le_length _ _)).mp hx with h | h
    · exact Or.inl h
    · exact Or.inr h

theorem natSorted_insertS {V : Type} {k : Nat} {v : V} :
    ∀ {l : List (Nat × V)}, NatSorted l →
      NatSorted (BSMap.insertS compare k v l) := by
  intro l
  induction l with
  | nil =>
    intro _
    show NatSorted [(k, v)]
    exact List.pairwise_singleton _ _
  | cons a rest ih =>
    intro hs
    have hpw := List.pairwise_cons.mp hs
    cases hcak : compare a.1 k with
    | lt =>
      rw [insertS_cons_of_lt hcak]
      unfold NatSorted
      rw [List.pairwise_cons]
      constructor
      · intro b hb
        rcases mem_of_mem_insertS hb with rfl | hbr
        · exact Nat.compare_eq_lt.mp hcak
        · exact hpw.1 b hbr
      · exact ih hpw.2
    | eq =>
      rw [insertS_cons_of_eq hcak]
      have hak : a.1 = k := Nat.compare_eq_eq.mp hcak
      unfold NatSorted
      rw [List.pairwise_cons]
      exact ⟨fun b hb => hak ▸ hpw.1 b hb, hpw.2⟩
    | gt =>
      rw [insertS_cons_of_gt hcak]
      have hka : k < a.1 := Nat.compare_eq_gt.mp hcak
      unfold NatSorted
      rw [List.pairwise_cons]
      constructor
      · intro b hb
        rcases List.mem_cons.mp hb with rfl | hbr
        · exact hka
        · exact Nat.lt_trans hka (hpw.1 b hbr)
      · exact hs

/-- A dirty set that contains `init` and is closed under `OutEdge` contains
the whole reachable closure of `init`. -/
theorem closed_contains_reachable {g : Graph} {dirty : List (Nat × Unit)}
    {init : List Nat}
    (hcl : ∀ x ∈ keys dirty, ∀ m, OutEdge g x m → m ∈ keys dirty)
    (hinit : ∀ n ∈ init, n ∈ keys dirty) :
    ∀ x, (∃ n ∈ init, Relation.ReflTransGen (OutEdge g) n x) →
      x ∈ keys dirty := by
  rintro x ⟨n, hn, hreach⟩
  induction hreach with
  | refl => exact hinit n hn
  | tail h1 h2 ihh => exact hcl _ ihh _ h2

/-- Conditional correctness of the `propagate_dirtiness` work-list loop:
from a state satisfying the loop invariants, a completed run yields exactly
the `OutEdge`-reachable closure of `init`, with a sorted (hence
duplicate-free) dirty list. -/
theorem propagateLoop_spec (g : Graph) (init : List Nat) :
    ∀ (fuel : Nat) (queue : List Nat) (dirty : List (Nat × Unit))
      (d2 : List (Nat × Unit)),
      NatSorted dirty →
      (∀ q ∈ queue, ∃ n ∈ init, Relation.ReflTransGen (OutEdge g) n q) →
      (∀ x ∈ keys dirty, ∃ n ∈ init, Relation.ReflTransGen (OutEdge g) n x) →
      (∀ x ∈ keys dirty, ∀ m, OutEdge g x m → m ∈ keys dirty ∨ m ∈ queue) →
      (∀ n ∈ init, n ∈ keys dirty ∨ n ∈ queue) →
      propagateLoop g fuel queue dirty = some d2 →
      NatSorted d2 ∧
        (∀ x, x ∈ keys d2 ↔
          ∃ n ∈ init, Relation.ReflTransGen (OutEdge g) n x) := by
  intro fuel
  induction fuel with
  | zero =>
    intro queue dirty d2 hsort hq hd hcl hinit h
    cases queue with
    | nil =>
      simp only [propagateLoop, Option.some.injEq] at h
      subst h
      refine ⟨hsort, fun x => ⟨fun hx => hd x hx, fun hex => ?_⟩⟩
      refine closed_contains_reachable ?_ ?_ x hex
      · intro y hy m hm
        rcases hcl y hy m hm with hh | hh
        · exact hh
        · cases hh
      · intro n hn
        rcases hinit n hn with hh | hh
        · exact hh
        · cases hh
    | cons a q => cases h
  | succ fuel ih =>
    intro queue dirty d2 hsort hq hd hcl hinit h
    cases queue with
    | nil =>
      simp only [propagateLoop, Option.some.injEq] at h
      subst h
      refine ⟨hsort, fun x => ⟨fun hx => hd x hx, fun hex => ?_⟩⟩
      refine closed_contains_reachable ?_ ?_ x hex
      · intro y hy m hm
        rcases hcl y hy m hm with hh | hh
        · exact hh
        · cases hh
      · intro n hn
        rcases hinit n hn with hh | hh
        · exact hh
        · cases hh
    | cons node queue2 =>
      simp only [propagateLoop] at h
      by_cases hc : BSMap.containsKey compare node dirty = true
      · rw [if_pos hc] at h
        have hcmem : node ∈ keys dirty := containsKey_iff.mp hc
        refine ih queue2 dirty d2 hsort
          (fun q hq2 => hq q (List.mem_cons_of_mem _ hq2)) hd ?_ ?_ h
        · intro x hx m hm
          rcases hcl x hx m hm with hh | hh
          · exact Or.inl hh
          · rcases List.mem_cons.mp hh with rfl | hh2
            · exact Or.inl hcmem
            · exact Or.inr hh2
        · intro n hn
          rcases hinit n hn with hh | hh
          · exact Or.inl hh
          · rcases List.mem_cons.mp hh with rfl | hh2
            · exact Or.inl hcmem
            · exact Or.inr hh2
      · rw [if_neg hc] at h
        have hnodeReach : ∃ n ∈ init, Relation.ReflTransGen (OutEdge g) n node :=
          hq node (List.mem_cons_self _ _)
        have hmemIns : ∀ x, x ∈ keys (BSMap.insertS compare node () dirty) ↔
            x = node ∨ x ∈ keys dirty := fun x => mem_keys_insertS
        refine ih _ _ d2 (natSorted_insertS hsort) ?_ ?_ ?_ ?_ h
        · intro q hq2
          rcases List.mem_append.mp hq2 with hold | hnew
          · exact hq q (List.mem_cons_of_mem _ hold)
          · obtain ⟨y, hy, rfl⟩ := List.mem_map.mp hnew
            obtain ⟨n, hn, hreach⟩ := hnodeReach
            exact ⟨n, hn, hreach.tail ⟨y, hy, rfl⟩⟩
        · intro x hx
          rcases (hmemIns x).mp hx with rfl | hold
          · exact hnodeReach
          · exact hd x hold
        · intro x hx m hm
          rcases (hmemIns x).mp hx with rfl | hold
          · right
            refine List.mem_append.mpr (Or.inr ?_)
            obtain ⟨y, hy, hym⟩ := hm
            exact List.mem_map.mpr ⟨y, hy, hym⟩
          · rcases hcl x hold m hm with hh | hh
            · exact Or.inl ((hmemIns m).mpr (Or.inr hh))
            · rcases List.mem_cons.mp hh with rfl | hh2
              · exact Or.inl ((hmemIns m).mpr (Or.inl rfl))
              · exact Or.inr (List.mem_append.mpr (Or.inl hh2))
        · intro n hn
          rcases hinit n hn with hh | hh
          · exact Or.inl ((hmemIns n).mpr (Or.inr hh))
          · rcases List.mem_cons.mp hh with rfl | hh2
            · exact Or.inl ((hmemIns n).mpr (Or.inl rfl))
            · exact Or.inr (List.mem_append.mpr (Or.inl hh2))

theorem rangeBy_length_le {K V : Type} (f : K → Ordering) (l : List (K × V)) :
    (BSMap.rangeBy f l).length ≤ l.length := by
  unfold BSMap.rangeBy
  have h1 := List.length_take (BSMap.upperBound f l - BSMap.lowerBound f l)
    (l.drop (BSMap.lowerBound f l))
  have h2 := List.length_drop (BSMap.lowerBound f l) (l := l)
  rw [h2] at h1
  omega

theorem nodeOutputs_length_le (g : Graph) (n : Nat) :
    (g.nodeOutputs n).length ≤ g.links.rev.length * g.links.fwd.length := by
  unfold Graph.nodeOutputs Links.getOuts
  rw [List.length_map, List.length_flatMap]
  have hbound : ∀ x ∈ (BSMap.rangeBy (fun probe => compare probe.to_in n)
      g.links.rev).map (fun rk => ((BSMap.rangeBy
        (fun probe => LinkKey.cmp probe rk.1.swap) g.links.fwd).map
          fun kv => (rk.1.from_out, kv.2)).length),
      x ≤ g.links.fwd.length := by
    intro x hx
    obtain ⟨rk, _, rfl⟩ := List.mem_map.mp hx
    rw [List.length_map]
    exact rangeBy_length_le _ _
  calc ((BSMap.rangeBy (fun probe => compare probe.to_in n)
        g.links.rev).map fun rk => ((BSMap.rangeBy
          (fun probe => LinkKey.cmp probe rk.1.swap) g.links.fwd).map
            fun kv => (rk.1.from_out, kv.2)).length).sum
      ≤ ((BSMap.rangeBy (fun probe => compare probe.to_in n)
          g.links.rev).map fun rk => ((BSMap.rangeBy
            (fun probe => LinkKey.cmp probe rk.1.swap) g.links.fwd).map
              fun kv => (rk.1.from_out, kv.2)).length).length *
          g.links.fwd.length := by
        have := List.sum_le_card_nsmul ((BSMap.rangeBy
          (fun probe => compare probe.to_in n) g.links.rev).map fun rk =>
            ((BSMap.rangeBy (fun probe => LinkKey.cmp probe rk.1.swap)
              g.links.fwd).map fun kv => (rk.1.from_out, kv.2)).length)
          g.links.fwd.length hbound
        simpa [smul_eq_mul] using this
    _ ≤ g.links.rev.length * g.links.fwd.length := by
        rw [List.length_map]
        exact Nat.mul_le_mul_right _ (rangeBy_length_le _ _)

theorem mem_fst_nodeOutputs_sources (g : Graph) (n : Nat) {m : Nat}
    (h : m ∈ (g.nodeOutputs n).map fun x => x.1) :
    m ∈ g.links.rev.map fun kv => kv.1.from_out := by
  obtain ⟨x, hx, rfl⟩ := List.mem_map.mp h
  unfold Graph.nodeOutputs at hx
  obtain ⟨p, hp, rfl⟩ := List.mem_map.mp hx
  unfold Links.getOuts at hp
  obtain ⟨rk, hrk, hin⟩ := List.mem_flatMap.mp hp
  obtain ⟨kv, _, rfl⟩ := List.mem_map.mp hin
  exact List.mem_map.mpr ⟨rk, mem_of_mem_rangeBy hrk, rfl⟩

/-- Fuel sufficiency for the `propagate_dirtiness` loop: with more fuel than
the queue length plus (insertable nodes) x (maximal enqueue batch + 1), the
loop cannot run out. -/
theorem propagateLoop_ne_none (g : Graph) :
    ∀ (fuel : Nat) (queue : List Nat) (dirty : List (Nat × Unit)),
      (∀ q ∈ queue, q ∈ (g.dirty_nodes.map Prod.fst ++
        g.links.rev.map fun kv => kv.1.from_out).dedup) →
      queue.length +
        (((g.dirty_nodes.map Prod.fst ++
            g.links.rev.map fun kv => kv.1.from_out).dedup.filter
          fun x => decide (x ∉ keys dirty)).length) *
          (g.links.rev.length * g.links.fwd.length + 1) < fuel →
      propagateLoop g fuel queue dirty ≠ none := by
  intro fuel
  induction fuel with
  | zero =>
    intro queue dirty hmem hlt
    exact absurd hlt (by omega)
  | succ fuel ih =>
    intro queue dirty hmem hlt
    cases queue with
    | nil => simp [propagateLoop]
    | cons node queue2 =>
      simp only [propagateLoop]
      by_cases hc : BSMap.containsKey compare node dirty = true
      · rw [if_pos hc]
        refine ih queue2 dirty (fun q hq => hmem q (List.mem_cons_of_mem _ hq))
          ?_
        simp only [List.length_cons] at hlt
        omega
      · rw [if_neg hc]
        have hnode_dc : node ∈ (g.dirty_nodes.map Prod.fst ++
            g.links.rev.map fun kv => kv.1.from_out).dedup :=
          hmem node (List.mem_cons_self _ _)
        have hnode_nd : node ∉ keys dirty := fun hh =>
          hc (containsKey_iff.mpr hh)
        refine ih _ _ ?_ ?_
        · intro q hq
          rcases List.mem_append.mp hq with hold | hnew
          · exact hmem q (List.mem_cons_of_mem _ hold)
          · rw [List.mem_dedup]
            exact List.mem_append.mpr
              (Or.inr (mem_fst_nodeOutputs_sources g node hnew))
        · have hx2all : ∀ x, x ∈ keys (BSMap.insertS compare node () dirty) ↔
              x = node ∨ x ∈ keys dirty := fun x => mem_keys_insertS
          have hsplit2 : ((g.dirty_nodes.map Prod.fst ++
              g.links.rev.map fun kv => kv.1.from_out).dedup.filter
                fun x => decide (x ∉ keys (BSMap.insertS compare node ()
                  dirty))) =
              ((g.dirty_nodes.map Prod.fst ++
                g.links.rev.map fun kv => kv.1.from_out).dedup.filter
                  fun x => decide (x ∉ keys dirty)).filter
                fun x => x != node := by
            rw [List.filter_filter]
            refine List.filter_congr fun x hx => ?_
            by_cases h1 : x = node
            · subst h1
              simp [hx2all, hnode_nd]
            · by_cases h2 : x ∈ keys dirty
              · simp [hx2all, h1, h2]
              · simp [hx2all, h1, h2]
          have hnd : ((g.dirty_nodes.map Prod.fst ++
              g.links.rev.map fun kv => kv.1.from_out).dedup.filter
                fun x => decide (x ∉ keys dirty)).Nodup :=
            (List.nodup_dedup _).filter _
          have hnode_f : node ∈ ((g.dirty_nodes.map Prod.fst ++
              g.links.rev.map fun kv => kv.1.from_out).dedup.filter
                fun x => decide (x ∉ keys dirty)) :=
            List.mem_filter.mpr ⟨hnode_dc, by simp [hnode_nd]⟩
          have hlen2 : (((g.dirty_nodes.map Prod.fst ++
              g.links.rev.map fun kv => kv.1.from_out).dedup.filter
                fun x => decide (x ∉ keys dirty)).filter
                  fun x => x != node).length =
              ((g.dirty_nodes.map Prod.fst ++
                g.links.rev.map fun kv => kv.1.from_out).dedup.filter
                  fun x => decide (x ∉ keys dirty)).length - 1 := by
            rw [← hnd.erase_eq_filter node, List.length_erase_of_mem hnode_f]
          have hpos : 1 ≤ ((g.dirty_nodes.map Prod.fst ++
              g.links.rev.map fun kv => kv.1.from_out).dedup.filter
                fun x => decide (x ∉ keys dirty)).length :=
            List.length_pos.mpr (List.ne_nil_of_mem hnode_f)
          have hpush : ((g.nodeOutputs node).map fun x => x.1).length ≤
              g.links.rev.length * g.links.fwd.length := by
            rw [List.length_map]
            exact nodeOutputs_length_le g node
          rw [hsplit2, hlen2]
          simp only [List.length_append, List.length_cons] at hlt ⊢
          set F := ((g.dirty_nodes.map Prod.fst ++
            g.links.rev.map fun kv => kv.1.from_out).dedup.filter
              fun x => decide (x ∉ keys dirty)).length with hF
          set K := g.links.rev.length * g.links.fwd.length with hK
          have hexp : F * (K + 1) = (F - 1) * (K + 1) + (K + 1) := by
            have hF1 : F - 1 + 1 = F := Nat.succ_pred_eq_of_pos hpos
            calc F * (K + 1) = (F - 1 + 1) * (K + 1) := by rw [hF1]
              _ = (F - 1) * (K + 1) + (K + 1) := by
                  rw [Nat.succ_mul]
          omega

theorem propagateDirtiness_ne_none (g : Graph) :
    g.propagateDirtiness ≠ none := by
  unfold Graph.propagateDirtiness
  have hrun := propagateLoop_ne_none g (dirtyFuel g)
    (g.dirty_nodes.map Prod.fst) []
    (fun q hq => List.mem_dedup.mpr (List.mem_append.mpr (Or.inl hq)))
    (by
      unfold dirtyFuel
      have hfe : ((g.dirty_nodes.map Prod.fst ++
          g.links.rev.map fun kv => kv.1.from_out).dedup.filter
            fun x => decide (x ∉ keys ([] : List (Nat × Unit)))) =
          (g.dirty_nodes.map Prod.fst ++
            g.links.rev.map fun kv => kv.1.from_out).dedup := by
        refine List.filter_eq_self.mpr fun a _ => ?_
        simp [keys]
      rw [hfe, List.length_map]
      omega)
  cases hloop : propagateLoop g (dirtyFuel g) (g.dirty_nodes.map Prod.fst) []
    with
  | none => exact absurd hloop hrun
  | some d2 => simp

/-- **C5**: `propagate_dirtiness` always completes, and afterwards the dirty
set is exactly the set of nodes forward-reachable (zero or more links) from
the previously dirty set; the resulting dirty-key list is duplicate-free
(each node was inserted, and hence processed, at most once), and nodes not
reachable from the old dirty set — in particular nodes only upstream of it —
are not marked. -/
theorem c5_propagateDirtiness_marks_reachable (g : Graph) (hWf : g.Wf) :
    ∃ g2, g.propagateDirtiness = some g2 ∧
      (∀ m, m ∈ keys g2.dirty_nodes ↔
        ∃ n ∈ keys g.dirty_nodes, Reach g n m) ∧
      (keys g2.dirty_nodes).Nodup := by
  cases hrun : propagateLoop g (dirtyFuel g) (g.dirty_nodes.map Prod.fst) []
    with
  | none =>
    exfalso
    apply propagateDirtiness_ne_none g
    unfold Graph.propagateDirtiness
    rw [hrun]
  | some d2 =>
    have hspec := propagateLoop_spec g (keys g.dirty_nodes) (dirtyFuel g)
      (g.dirty_nodes.map Prod.fst) [] d2 List.Pairwise.nil
      (fun q hq => ⟨q, hq, Relation.ReflTransGen.refl⟩)
      (fun x hx => absurd hx (List.not_mem_nil x))
      (fun x hx => absurd hx (List.not_mem_nil x))
      (fun n hn => Or.inr hn) hrun
    refine ⟨{ g with dirty_nodes := d2 }, ?_, ?_, ?_⟩
    · unfold Graph.propagateDirtiness
      rw [hrun]
    · intro m
      rw [show ({ g with dirty_nodes := d2 } : Graph).dirty_nodes = d2 from
        rfl]
      rw [hspec.2 m]
      constructor
      · rintro ⟨n, hn, hreach⟩
        exact ⟨n, hn, hreach.mono fun a b hx => (outEdge_iff_edge hWf).mp hx⟩
      · rintro ⟨n, hn, hreach⟩
        exact ⟨n, hn, hreach.mono fun a b hx => (outEdge_iff_edge hWf).mpr hx⟩
    · exact hspec.1.keys_nodup

/-- Witness for C5 on the chain `1→2→3` with only node 1 dirty: all of
`{1,2,3}` end up dirty. -/
theorem c5_witness :
    chainDirtyA.Wf ∧
      ∃ g2, chainDirtyA.propagateDirtiness = some g2 ∧
        (∀ m, m ∈ keys g2.dirty_nodes ↔
          ∃ n ∈ keys chainDirtyA.dirty_nodes, Reach chainDirtyA n m) ∧
        (keys g2.dirty_nodes).Nodup :=
  ⟨by decide, c5_propagateDirtiness_marks_reachable chainDirtyA (by decide)⟩

/-! ## Topological sort: chain and counting helpers (claims C1, C4) -/

theorem chain_edge_transGen {g : Graph} :
    ∀ (l : List Nat) (a b : Nat), List.Chain (Edge g) a (l ++ [b]) →
      Relation.TransGen (Edge g) a b := by
  intro l
  induction l with
  | nil =>
    intro a b h
    rw [List.nil_append, List.chain_cons] at h
    exact Relation.TransGen.single h.1
  | cons x xs ih =>
    intro a b h
    rw [List.cons_append, List.chain_cons] at h
    exact Relation.TransGen.head h.1 (ih x b h.2)

theorem chain_append_singleton {g : Graph} {l : List Nat} {a b : Nat}
    (hc : List.Chain' (Edge g) l) (hl : l.getLast? = some a) (hab : Edge g a b) :
    List.Chain' (Edge g) (l ++ [b]) := by
  apply List.Chain'.append hc (List.chain'_singleton b)
  intro x hx y hy
  rw [hl, Option.mem_def] at hx
  rw [List.head?_cons, Option.mem_def] at hy
  cases Option.some.inj hx
  cases Option.some.inj hy
  exact hab

theorem take_one_of_head {A : Type} {l : List A} {a : A}
    (h : l.head? = some a) : l.take 1 = [a] := by
  cases l with
  | nil => cases h
  | cons x xs =>
    rw [List.head?_cons] at h
    cases Option.some.inj h
    rfl

theorem chain_stack_reach {g : Graph} :
    ∀ (stack : List Nat) (io : Nat), stack.Chain' (Edge g) →
      (stack ≠ [] → stack.getLast? = some io) →
      ∀ x ∈ stack, Reach g x io := by
  intro stack
  induction stack with
  | nil => intro io _ _ x hx; cases hx
  | cons a l ih =>
    intro io hch hl x hx
    cases l with
    | nil =>
      have h := hl (by simp)
      simp only [List.getLast?_singleton, Option.some.injEq] at h
      rcases List.mem_singleton.mp hx with rfl
      exact h ▸ Relation.ReflTransGen.refl
    | cons b m =>
      rw [List.chain'_cons] at hch
      have hlast : (b :: m).getLast? = some io := by
        have h := hl (by simp)
        rwa [List.getLast?_cons_cons] at h
      have hrest := ih io hch.2 fun _ => hlast
      rcases List.mem_cons.mp hx with rfl | hx2
      · exact Relation.ReflTransGen.head hch.1 (hrest b (by simp))
      · exact hrest x hx2

theorem length_filter_mono {A : Type} (p q : A → Bool) :
    ∀ (l : List A), (∀ a ∈ l, p a = true → q a = true) →
      (l.filter p).length ≤ (l.filter q).length := by
  intro l
  induction l with
  | nil => intro _; simp
  | cons x xs ih =>
    intro h
    have hrest := ih fun a ha => h a (List.mem_cons_of_mem _ ha)
    by_cases hp : p x = true
    · rw [List.filter_cons_of_pos hp, List.filter_cons_of_pos (h x (by simp) hp)]
      simpa using hrest
    · rw [List.filter_cons_of_neg hp]
      cases hq : q x with
      | false => rw [List.filter_cons_of_neg (by simp [hq])]; exact hrest
      | true =>
        rw [List.filter_cons_of_pos hq]
        simp only [List.length_cons]
        omega

theorem length_filter_lt_of_strict {A : Type} (p q : A → Bool) :
    ∀ (l : List A) (a : A), a ∈ l → p a = false → q a = true →
      (∀ x ∈ l, p x = true → q x = true) →
      (l.filter p).length < (l.filter q).length := by
  intro l
  induction l with
  | nil => intro a ha; cases ha
  | cons x xs ih =>
    intro a ha hpa hqa himp
    have himp' := fun b hb => himp b (List.mem_cons_of_mem _ hb)
    rcases List.mem_cons.mp ha with rfl | hax
    · rw [List.filter_cons_of_neg (by simp [hpa]), List.filter_cons_of_pos hqa]
      have := length_filter_mono p q xs himp'
      simp only [List.length_cons]
      omega
    · have hih := ih a hax hpa hqa himp'
      by_cases hpx : p x = true
      · rw [List.filter_cons_of_pos hpx, List.filter_cons_of_pos (himp x (by simp) hpx)]
        simpa using hih
      · rw [List.filter_cons_of_neg hpx]
        cases hqx : q x with
        | false => rw [List.filter_cons_of_neg (by simp [hqx])]; exact hih
        | true =>
          rw [List.filter_cons_of_pos hqx]
          simp only [List.length_cons]
          omega

theorem indexOf_append_singleton_self {l : List Nat} {a : Nat} (h : a ∉ l) :
    (l ++ [a]).indexOf a = l.length := by
  induction l with
  | nil => simp [List.indexOf_cons_self]
  | cons x xs ih =>
    have hne : a ≠ x := fun he => h (he ▸ List.mem_cons_self x xs)
    rw [List.cons_append, List.indexOf_cons_ne _ (Ne.symm hne),
      ih fun hx => h (List.mem_cons_of_mem _ hx), List.length_cons]

theorem nodeInputs_fst_mem_sources (g : Graph) (n : Nat) {x : Nat × Nat × Nat}
    (hx : x ∈ g.nodeInputs n) :
    x.1 ∈ g.links.fwd.map fun kv => kv.1.from_out := by
  unfold Graph.nodeInputs at hx
  rw [List.mem_map] at hx
  obtain ⟨p, hp, rfl⟩ := hx
  unfold Links.getIns at hp
  rw [List.mem_map] at hp
  obtain ⟨kv, hkv, hmap⟩ := hp
  have hkv2 : kv ∈ g.links.fwd := mem_of_mem_rangeBy hkv
  refine List.mem_map.mpr ⟨kv, hkv2, ?_⟩
  have : kv.1.from_out = p.1 := congrArg Prod.fst hmap
  rw [this]

/-! ### The input loop preserves the toposort invariants -/

theorem runInputs_spec (g : Graph) (hWf : g.Wf)
    (rec : Nat → TState → Option (Except TErr TState))
    (node : Nat) (stack : List Nat)
    (hrec : ∀ (i : Nat) (s : TState), StInv g s → StackInv g s (node :: stack) →
      NodeOk g s (node :: stack) i →
      ∀ r, rec i s = some r →
        (∀ st2, r = Except.ok st2 → PostOk g s (node :: stack) i st2) ∧
        (∀ e, r = Except.error e → PostErr g s (node :: stack) i e)) :
    ∀ (todo : List (Nat × Nat × Nat)) (s : TState),
      (∀ x ∈ todo, Edge g x.1 node) →
      Reach g node s.io_node →
      StInv g s → StackInv g s (node :: stack) →
      ∀ r, runInputs rec node todo s = some r →
        (∀ st2, r = Except.ok st2 →
          st2.io_node = s.io_node ∧
          (∃ suf, st2.order = s.order ++ suf) ∧
          (∀ x ∈ keys s.marked, x ∈ keys st2.marked) ∧
          (∀ x ∈ keys s.visiting, x ∈ keys st2.visiting) ∧
          StInv g st2 ∧ StackInv g st2 (node :: stack) ∧
          (∀ x ∈ todo, x.1 ∈ keys st2.marked ∨ x.1 = s.io_node)) ∧
        (∀ e, r = Except.error e → PostErr g s stack node e) := by
  intro todo
  induction todo with
  | nil =>
    intro s hedges hreach hst hstk r hr
    simp only [runInputs] at hr
    cases hr
    constructor
    · intro st2 h2
      cases h2
      exact ⟨rfl, ⟨[], by simp⟩, fun x h => h, fun x h => h, hst, hstk,
        fun x hx => absurd hx (List.not_mem_nil x)⟩
    · intro e he; cases he
  | cons a rest ih =>
    intro s hedges hreach hst hstk r hr
    obtain ⟨i, p⟩ := a
    have hedge : Edge g i node := hedges (i, p) (by simp)
    have hnodeok : NodeOk g s (node :: stack) i :=
      ⟨Relation.ReflTransGen.head hedge hreach, hedge⟩
    simp only [runInputs] at hr
    split at hr
    · cases hr
    · rename_i e0 hres
      cases hr
      have pe := (hrec i s hst hstk hnodeok _ hres).2 e0 rfl
      obtain ⟨hne, hrch, hcomp, hincomp⟩ := pe
      constructor
      · intro st2 h2; cases h2
      · intro e he
        injection he with he2
        subst he2
        unfold augmentErr
        by_cases hc2 : e0.2 = true
        · rw [if_pos hc2]
          refine ⟨hne, hrch, hcomp, fun hf => absurd hf (by simp [hc2])⟩
        · rw [if_neg hc2]
          have hfalse : e0.2 = false := Bool.eq_false_iff.mpr hc2
          obtain ⟨hchain, hlast, v, hvmem, hhead⟩ := hincomp hfalse
          have hchain2 : List.Chain' (Edge g) (e0.1 ++ [node]) :=
            chain_append_singleton hchain hlast hedge
          by_cases hhd : e0.1.head? = some node
          · rw [if_pos hhd]
            refine ⟨hne, hrch, fun _ => ?_, fun hf => absurd hf (by simp)⟩
            rw [take_one_of_head hhd]
            exact hchain2
          · rw [if_neg hhd]
            refine ⟨by simp, ?_, fun hf => absurd hf (by simp), fun _ => ?_⟩
            · intro x hx
              rcases List.mem_append.mp hx with hx1 | hx2
              · exact hrch x hx1
              · rcases List.mem_singleton.mp hx2 with rfl
                exact hreach
            · refine ⟨hchain2, List.getLast?_concat _, ?_⟩
              have hvstack : v ∈ stack := by
                rcases List.mem_cons.mp hvmem with rfl | h2
                · exact absurd hhead hhd
                · exact h2
              have hheadapp : (e0.1 ++ [node]).head? = some v := by
                cases hl : e0.1 with
                | nil => exact absurd hl hne
                | cons y ys =>
                  rw [hl, List.head?_cons] at hhead
                  rw [List.cons_append, List.head?_cons]
                  exact hhead
              exact ⟨v, hvstack, hheadapp⟩
    · rename_i s2 hres
      have pok := (hrec i s hst hstk hnodeok _ hres).1 s2 rfl
      obtain ⟨hio2, ⟨suf, hord⟩, hmk2, hvs2, hstinv2, hvisiff2, hstackmk2,
        hnodein2⟩ := pok
      have hstk2 : StackInv g s2 (node :: stack) := by
        refine ⟨hvisiff2, hstackmk2, hstk.2.2.1, hstk.2.2.2.1, ?_⟩
        intro hne2
        rw [hio2]
        exact hstk.2.2.2.2 hne2
      have hreach2 : Reach g node s2.io_node := by rw [hio2]; exact hreach
      have hrest := ih s2 (fun x hx => hedges x (List.mem_cons_of_mem _ hx))
        hreach2 hstinv2 hstk2 r hr
      constructor
      · intro st2 h2
        obtain ⟨hio3, ⟨suf2, hord2⟩, hmk3, hvs3, hstinv3, hstk3, hproc3⟩ :=
          hrest.1 st2 h2
        refine ⟨hio3.trans hio2, ⟨suf ++ suf2, ?_⟩,
          fun x hx => hmk3 x (hmk2 x hx), fun x hx => hvs3 x (hvs2 x hx),
          hstinv3, hstk3, ?_⟩
        · rw [hord2, hord, List.append_assoc]
        · intro x hx
          rcases List.mem_cons.mp hx with rfl | hx2
          · rcases hnodein2 with hm | ⟨hio4, _⟩
            · exact Or.inl (hmk3 _ hm)
            · exact Or.inr hio4
          · rcases hrest.1 st2 h2 |>.2.2.2.2.2.2 x hx2 with hm | hio4
            · exact Or.inl hm
            · exact Or.inr (hio4.trans hio2)
      · intro e he
        have pe := hrest.2 e he
        refine ⟨pe.1, ?_, pe.2.2.1, pe.2.2.2⟩
        intro x hx
        have := pe.2.1 x hx
        rwa [hio2] at this

/-- Master invariant theorem for `toposort`: under the state and stack
invariants, a completed call satisfies `PostOk` and a failed call `PostErr`. -/
theorem toposort_spec (g : Graph) (hWf : g.Wf) :
    ∀ (fuel : Nat) (node : Nat) (st : TState) (stack : List Nat),
      StInv g st → StackInv g st stack → NodeOk g st stack node →
      ∀ r, toposortFuel g fuel node st = some r →
        (∀ st2, r = Except.ok st2 → PostOk g st stack node st2) ∧
        (∀ e, r = Except.error e → PostErr g st stack node e) := by
  intro fuel
  induction fuel with
  | zero => intro node st stack _ _ _ r hr; simp [toposortFuel] at hr
  | succ fuel ih =>
    intro node st stack hst hstk hnode r hr
    simp only [toposortFuel] at hr
    split at hr
    · -- node already marked
      rename_i hm
      cases hr
      have hmk : node ∈ keys st.marked := containsKey_iff.mp hm
      constructor
      · intro st2 h2
        cases h2
        exact ⟨rfl, ⟨[], by simp⟩, fun x h => h, fun x h => h, hst,
          hstk.1, hstk.2.1, Or.inl hmk⟩
      · intro e he; cases he
    · split at hr
      · -- node in the visiting set
        rename_i hm hv
        split at hr
        · -- equal to the output node
          rename_i heq
          cases hr
          have hnm : node ∉ keys st.marked := fun h =>
            hm (containsKey_iff.mpr h)
          have hvk : node ∈ keys st.visiting := containsKey_iff.mp hv
          have hns : node ∈ stack := by
            rcases (hstk.1 node).mp hvk with h | h
            · exact absurd h hnm
            · exact h
          constructor
          · intro st2 h2
            cases h2
            exact ⟨rfl, ⟨[], by simp⟩, fun x h => h, fun x h => h, hst,
              hstk.1, hstk.2.1, Or.inr ⟨heq, hns⟩⟩
          · intro e he; cases he
        · -- not the output node: report a one-node cycle seed
          rename_i hne
          cases hr
          have hnm : node ∉ keys st.marked := fun h =>
            hm (containsKey_iff.mpr h)
          have hvk : node ∈ keys st.visiting := containsKey_iff.mp hv
          have hns : node ∈ stack := by
            rcases (hstk.1 node).mp hvk with h | h
            · exact absurd h hnm
            · exact h
          constructor
          · intro st2 h2; cases h2
          · intro e he
            injection he with he2
            subst he2
            refine ⟨by simp, ?_, ?_, ?_⟩
            · intro x hx
              rcases List.mem_singleton.mp hx with rfl
              exact hnode.1
            · intro hc
              have hself : Edge g node node := by
                rcases List.any_eq_true.mp hc with ⟨x, hx, hbeq⟩
                have hx1 : x.1 = node := by
                  have := beq_iff_eq.mp hbeq
                  exact this
                have := mem_nodeInputs_edge hWf.1 hx
                rwa [hx1] at this
              simp only [List.take, List.cons_append, List.nil_append]
              exact List.chain'_cons.mpr ⟨hself, List.chain'_singleton node⟩
            · intro _
              exact ⟨List.chain'_singleton node, rfl, node, hns, rfl⟩
      · -- node unvisited: recurse over its inputs
        rename_i hm hv
        have hnm : node ∉ keys st.marked := fun h => hm (containsKey_iff.mpr h)
        have hnv : node ∉ keys st.visiting := fun h => hv (containsKey_iff.mpr h)
        have hnstack : node ∉ stack := fun h =>
          hnv ((hstk.1 node).mpr (Or.inr h))
        have hst1 : StInv g { st with
            visiting := BSMap.insertS compare node () st.visiting } := hst
        have hchain1 : (node :: stack).Chain' (Edge g) := by
          cases hs : stack with
          | nil => exact List.chain'_singleton node
          | cons pp rest =>
            rw [List.chain'_cons]
            have h2 := hnode.2
            rw [hs] at h2
            have h3 := hstk.2.2.2.1
            rw [hs] at h3
            exact ⟨h2, h3⟩
        have hlast1 : (node :: stack) ≠ [] →
            (node :: stack).getLast? = some st.io_node := by
          intro _
          cases hs : stack with
          | nil =>
            have h2 := hnode.2
            rw [hs] at h2
            simp [h2]
          | cons pp rest =>
            rw [List.getLast?_cons_cons]
            have h3 := hstk.2.2.2.2
            rw [hs] at h3
            exact h3 (by simp)
        have hstk1 : StackInv g { st with
            visiting := BSMap.insertS compare node () st.visiting }
            (node :: stack) := by
          refine ⟨?_, ?_, List.nodup_cons.mpr ⟨hnstack, hstk.2.2.1⟩,
            hchain1, hlast1⟩
          · intro x
            show x ∈ keys (BSMap.insertS compare node () st.visiting) ↔ _
            rw [mem_keys_insertS, List.mem_cons, hstk.1 x]
            tauto
          · intro x hx
            rcases List.mem_cons.mp hx with rfl | hx2
            · exact hnm
            · exact hstk.2.1 x hx2
        have hedges : ∀ x ∈ g.nodeInputs node, Edge g x.1 node :=
          fun x hx => mem_nodeInputs_edge hWf.1 hx
        have hrec := fun (i : Nat) (s : TState) => ih i s (node :: stack)
        split at hr
        · cases hr
        · -- the recursion failed below: pass the error through
          rename_i e0 hres
          cases hr
          have rspec := runInputs_spec g hWf _ node stack hrec
            (g.nodeInputs node)
            { st with visiting := BSMap.insertS compare node () st.visiting }
            hedges hnode.1 hst1 hstk1 _ hres
          have pe := rspec.2 e0 rfl
          constructor
          · intro st2 h2; cases h2
          · intro e he
            injection he with he2
            subst he2
            exact pe
        · -- all inputs done: mark the node and append it to the order
          rename_i s2 hres
          have rspec := runInputs_spec g hWf _ node stack hrec
            (g.nodeInputs node)
            { st with visiting := BSMap.insertS compare node () st.visiting }
            hedges hnode.1 hst1 hstk1 _ hres
          have pok := rspec.1 s2 rfl
          obtain ⟨hio2, ⟨suf, hord⟩, hmk2, hvs2, hstinv2, hstk2, hproc⟩ := pok
          obtain ⟨hiff2, hnd2, hreach2, hclosed2, hprec2⟩ := hstinv2
          have hnode_nm2 : node ∉ keys s2.marked :=
            hstk2.2.1 node (List.mem_cons_self node stack)
          have hnode_no2 : node ∉ s2.order := fun h =>
            hnode_nm2 ((hiff2 node).mpr h)
          have hnstack2 : node ∉ stack := hnstack
          cases hr
          constructor
          · intro st2 h2
            injection h2 with h3
            subst h3
            refine ⟨hio2, ⟨suf ++ [node], ?_⟩, ?_, ?_, ?_, ?_, ?_, ?_⟩
            · show s2.order ++ [node] = st.order ++ (suf ++ [node])
              rw [hord, List.append_assoc]
            · intro x hx
              show x ∈ keys (BSMap.insertS compare node () s2.marked)
              exact mem_keys_insertS.mpr (Or.inr (hmk2 x hx))
            · intro x hx
              show x ∈ keys s2.visiting
              exact hvs2 x (mem_keys_insertS.mpr (Or.inr hx))
            · -- StInv of the final state
              refine ⟨?_, ?_, ?_, ?_, ?_⟩
              · intro x
                show x ∈ keys (BSMap.insertS compare node () s2.marked) ↔
                  x ∈ s2.order ++ [node]
                rw [mem_keys_insertS, List.mem_append, List.mem_singleton,
                  hiff2 x]
                tauto
              · show (s2.order ++ [node]).Nodup
                rw [List.nodup_append]
                exact ⟨hnd2, List.nodup_singleton node, by
                  intro x hx hx2
                  rcases List.mem_singleton.mp hx2 with rfl
                  exact hnode_no2 hx⟩
              · intro x hx
                show Reach g x s2.io_node
                rcases List.mem_append.mp hx with hx1 | hx2
                · exact hreach2 x hx1
                · rcases List.mem_singleton.mp hx2 with rfl
                  rw [hio2]
                  exact hnode.1
              · intro v hv2 u hedge
                show u ∈ s2.order ++ [node] ∨ u = s2.io_node
                rcases List.mem_append.mp hv2 with hv1 | hv3
                · rcases hclosed2 v hv1 u hedge with h | h
                  · exact Or.inl (List.mem_append_left _ h)
                  · exact Or.inr h
                · rcases List.mem_singleton.mp hv3 with rfl
                  obtain ⟨x, hx, hx1⟩ := edge_mem_nodeInputs hWf.1 hedge
                  rcases hproc x hx with hm2 | hio3
                  · rw [hx1] at hm2
                    exact Or.inl (List.mem_append_left _ ((hiff2 u).mp hm2))
                  · rw [hx1] at hio3
                    exact Or.inr (hio3.trans hio2.symm)
              · intro u v hedge huio hv2
                have huio2 : u ≠ s2.io_node := huio
                rcases List.mem_append.mp hv2 with hv1 | hv3
                · obtain ⟨humem, hlt⟩ := hprec2 u v hedge huio2 hv1
                  refine ⟨List.mem_append_left _ humem, ?_⟩
                  show (s2.order ++ [node]).indexOf u <
                    (s2.order ++ [node]).indexOf v
                  rw [List.indexOf_append_of_mem humem,
                    List.indexOf_append_of_mem hv1]
                  exact hlt
                · have hveq : node = v := (List.mem_singleton.mp hv3).symm
                  subst hveq
                  obtain ⟨x, hx, hx1⟩ := edge_mem_nodeInputs hWf.1 hedge
                  have humem : u ∈ s2.order := by
                    rcases hproc x hx with hm2 | hio3
                    · rw [hx1] at hm2
                      exact (hiff2 u).mp hm2
                    · rw [hx1] at hio3
                      exact absurd (hio3.trans hio2.symm) huio2
                  refine ⟨List.mem_append_left _ humem, ?_⟩
                  show (s2.order ++ [node]).indexOf u <
                    (s2.order ++ [node]).indexOf node
                  rw [List.indexOf_append_of_mem humem,
                    indexOf_append_singleton_self hnode_no2]
                  exact List.indexOf_lt_length.mpr humem
            · -- final visiting set vs the outer stack
              intro x
              show x ∈ keys s2.visiting ↔
                x ∈ keys (BSMap.insertS compare node () s2.marked) ∨ x ∈ stack
              rw [hstk2.1 x, mem_keys_insertS, List.mem_cons]
              tauto
            · intro x hx
              show x ∉ keys (BSMap.insertS compare node () s2.marked)
              intro hx2
              rcases mem_keys_insertS.mp hx2 with rfl | hx3
              · exact hnstack2 hx
              · exact hstk2.2.1 x (List.mem_cons_of_mem _ hx) hx3
            · exact Or.inl (mem_keys_insertS.mpr (Or.inl rfl))
          · intro e he; cases he

/-! ### Fuel sufficiency for the toposort recursion -/

theorem runInputs_visiting_mono
    (rec : Nat → TState → Option (Except TErr TState)) (node : Nat)
    (hrec : ∀ i s st2, rec i s = some (Except.ok st2) →
      ∀ x ∈ keys s.visiting, x ∈ keys st2.visiting) :
    ∀ (todo : List (Nat × Nat × Nat)) (s st2 : TState),
      runInputs rec node todo s = some (Except.ok st2) →
      ∀ x ∈ keys s.visiting, x ∈ keys st2.visiting := by
  intro todo
  induction todo with
  | nil =>
    intro s st2 h x hx
    simp only [runInputs] at h
    injection h with h2
    injection h2 with h3
    rw [← h3]
    exact hx
  | cons a rest ih =>
    intro s st2 h x hx
    obtain ⟨i, p⟩ := a
    simp only [runInputs] at h
    split at h
    · cases h
    · simp at h
    · rename_i s1 heq
      exact ih s1 st2 h x (hrec i s s1 heq x hx)

theorem toposort_visiting_mono (g : Graph) :
    ∀ (fuel node : Nat) (s st2 : TState),
      toposortFuel g fuel node s = some (Except.ok st2) →
      ∀ x ∈ keys s.visiting, x ∈ keys st2.visiting := by
  intro fuel
  induction fuel with
  | zero => intro node s st2 h; simp [toposortFuel] at h
  | succ fuel ih =>
    intro node s st2 h x hx
    simp only [toposortFuel] at h
    split at h
    · injection h with h2
      injection h2 with h3
      rw [← h3]
      exact hx
    · split at h
      · split at h
        · injection h with h2
          injection h2 with h3
          rw [← h3]
          exact hx
        · simp at h
      · split at h
        · cases h
        · simp at h
        · rename_i s2 heq
          injection h with h2
          injection h2 with h3
          have hmono := runInputs_visiting_mono _ node
            (fun i s st2 hh => ih i s st2 hh) _ _ _ heq
          have hx1 : x ∈ keys (BSMap.insertS compare node () s.visiting) :=
            mem_keys_insertS.mpr (Or.inr hx)
          have := hmono x hx1
          rw [← h3]
          exact this

theorem runInputs_ne_none (g : Graph) (fuel node : Nat)
    (ih : ∀ (i : Nat) (st : TState), i ∈ toposortCands g →
      ((toposortCands g).filter fun x =>
          decide (x ∉ keys st.visiting)).length < fuel →
      toposortFuel g fuel i st ≠ none) :
    ∀ (todo : List (Nat × Nat × Nat)) (st : TState),
      (∀ x ∈ todo, x.1 ∈ toposortCands g) →
      ((toposortCands g).filter fun x =>
          decide (x ∉ keys st.visiting)).length < fuel →
      runInputs (fun i s => toposortFuel g fuel i s) node todo st ≠ none := by
  intro todo
  induction todo with
  | nil => intro st _ _; simp [runInputs]
  | cons a rest ihr =>
    intro st hcand hfu
    obtain ⟨i, p⟩ := a
    simp only [runInputs]
    have hne := ih i st (hcand (i, p) (by simp)) hfu
    cases hres : toposortFuel g fuel i st with
    | none => exact absurd hres hne
    | some r =>
      cases r with
      | error e => simp
      | ok s2 =>
        have hmono := toposort_visiting_mono g fuel i st s2 hres
        have hle : ((toposortCands g).filter fun x =>
              decide (x ∉ keys s2.visiting)).length ≤
            ((toposortCands g).filter fun x =>
              decide (x ∉ keys st.visiting)).length := by
          apply length_filter_mono
          intro a _ hp
          have hnot := of_decide_eq_true hp
          exact decide_eq_true fun hmem => hnot (hmono a hmem)
        exact ihr s2 (fun x hx => hcand x (List.mem_cons_of_mem _ hx))
          (lt_of_le_of_lt hle hfu)

/-- The fuel bound used by `update_order` suffices: `toposort` terminates
whenever the candidate set not yet visited is smaller than the fuel. -/
theorem toposortFuel_ne_none (g : Graph) :
    ∀ (fuel node : Nat) (st : TState), node ∈ toposortCands g →
      ((toposortCands g).filter fun x =>
          decide (x ∉ keys st.visiting)).length < fuel →
      toposortFuel g fuel node st ≠ none := by
  intro fuel
  induction fuel with
  | zero => intro node st _ h; omega
  | succ fuel ih =>
    intro node st hmem hflt
    simp only [toposortFuel]
    split
    · simp
    · split
      · split <;> simp
      · rename_i hm hv
        have hnv : node ∉ keys st.visiting := fun h =>
          hv (containsKey_iff.mpr h)
        have hdec := length_filter_lt_of_strict
          (fun x => decide (x ∉ keys (BSMap.insertS compare node () st.visiting)))
          (fun x => decide (x ∉ keys st.visiting))
          (toposortCands g) node hmem
          (decide_eq_false fun h => h (mem_keys_insertS.mpr (Or.inl rfl)))
          (decide_eq_true hnv)
          (fun x _ hp => by
            have hnot := of_decide_eq_true hp
            exact decide_eq_true fun hmem2 =>
              hnot (mem_keys_insertS.mpr (Or.inr hmem2)))
        have hlt1 : ((toposortCands g).filter fun x =>
            decide (x ∉ keys (BSMap.insertS compare node ()
              st.visiting))).length < fuel := by omega
        have hsrc : ∀ x ∈ g.nodeInputs node, x.1 ∈ toposortCands g := by
          intro x hx
          exact List.mem_dedup.mpr
            (List.mem_cons_of_mem _ (nodeInputs_fst_mem_sources g node hx))
        have hrne := runInputs_ne_none g fuel node (fun i s hi hf => ih i s hi hf)
          (g.nodeInputs node)
          { st with visiting := BSMap.insertS compare node () st.visiting }
          hsrc hlt1
        cases hres : runInputs (fun i s => toposortFuel g fuel i s) node
            (g.nodeInputs node)
            { st with visiting := BSMap.insertS compare node () st.visiting } with
        | none => exact absurd hres hrne
        | some r => cases r <;> simp

/-! ### `update_order`: the two possible outcomes -/

/-- Every `update_order` call returns `some`: either a successful state whose
order satisfies the full invariant and contains the output node, or a cycle
error whose node list is a non-empty closed edge loop of output-reaching
nodes. -/
theorem updateOrder_outcome (g : Graph) (hWf : g.Wf) :
    (∃ st2 : TState,
        g.updateOrder = some (Except.ok { g with order := some st2.order }) ∧
        st2.io_node = g.io_node ∧ StInv g st2 ∧ g.io_node ∈ st2.order) ∨
    (∃ e : TErr, g.updateOrder = some (Except.error (OrderError.Cycle e.1)) ∧
        e.1 ≠ [] ∧ (∀ x ∈ e.1, Reach g x g.io_node) ∧
        List.Chain' (Edge g) (e.1 ++ e.1.take 1)) := by
  have hiomem : g.io_node ∈ toposortCands g :=
    List.mem_dedup.mpr (List.mem_cons_self _ _)
  have hne := toposortFuel_ne_none g ((toposortCands g).length + 1) g.io_node
    { order := [], visiting := [], marked := [], io_node := g.io_node }
    hiomem (Nat.lt_succ_of_le (List.length_filter_le _ _))
  have hst0 : StInv g
      { order := [], visiting := [], marked := [], io_node := g.io_node } := by
    refine ⟨?_, ?_, ?_, ?_, ?_⟩ <;> simp [keys]
  have hstk0 : StackInv g
      { order := [], visiting := [], marked := [], io_node := g.io_node } [] := by
    refine ⟨?_, ?_, ?_, ?_, ?_⟩ <;> simp [keys]
  have hnode0 : NodeOk g
      { order := [], visiting := [], marked := [], io_node := g.io_node }
      [] g.io_node := ⟨Relation.ReflTransGen.refl, rfl⟩
  cases hres : toposortFuel g ((toposortCands g).length + 1) g.io_node
      { order := [], visiting := [], marked := [], io_node := g.io_node } with
  | none => exact absurd hres hne
  | some r =>
    have hspec := toposort_spec g hWf ((toposortCands g).length + 1) g.io_node
      { order := [], visiting := [], marked := [], io_node := g.io_node }
      [] hst0 hstk0 hnode0 r hres
    cases r with
    | ok st2 =>
      left
      have pok := hspec.1 st2 rfl
      obtain ⟨hio2, _, _, _, hstinv2, _, _, hnode2⟩ := pok
      have hioin : g.io_node ∈ st2.order := by
        rcases hnode2 with hmk | ⟨_, hfalse⟩
        · exact (hstinv2.1 _).mp hmk
        · cases hfalse
      refine ⟨st2, ?_, hio2, hstinv2, hioin⟩
      unfold Graph.updateOrder
      rw [hres]
    | error e =>
      right
      have pe := hspec.2 e rfl
      obtain ⟨hne1, hrch, hcomp, hincomp⟩ := pe
      have hc : e.2 = true := by
        cases hc2 : e.2 with
        | true => rfl
        | false =>
          obtain ⟨_, _, v, hv, _⟩ := hincomp hc2
          cases hv
      refine ⟨e, ?_, hne1, hrch, hcomp hc⟩
      unfold Graph.updateOrder
      rw [hres]

/-- A state satisfying the invariant whose order holds the output node holds
every node that reaches the output. -/
theorem stinv_reach_mem {g : Graph} {st2 : TState} (hst : StInv g st2)
    (hio : st2.io_node = g.io_node) (hioin : g.io_node ∈ st2.order) :
    ∀ m, Reach g m g.io_node → m ∈ st2.order := by
  intro m hm
  induction hm using Relation.ReflTransGen.head_induction_on with
  | refl => exact hioin
  | head h' h ihm =>
    rename_i a c
    rcases hst.2.2.2.1 c ihm a h' with hin | hioeq
    · exact hin
    · rw [hio] at hioeq
      rw [hioeq]
      exact hioin

/-- A graph all of whose links go from a smaller to a larger node ref has no
cycles at all. -/
theorem acyclic_of_forward_increasing (g : Graph)
    (h : ∀ kv ∈ g.links.fwd, kv.1.from_out < kv.1.to_in) : Acyclic g := by
  intro n _ hcyc
  have hmono : ∀ a b, Relation.TransGen (Edge g) a b → a < b := by
    intro a b hab
    induction hab with
    | single hx =>
      obtain ⟨kv, hkv, h1, h2⟩ := hx
      have := h kv hkv
      omega
    | tail _ hbc ihab =>
      obtain ⟨kv, hkv, h1, h2⟩ := hbc
      have := h kv hkv
      omega
  exact absurd (hmono n n hcyc) (by omega)

/-- **C4**: on every well-formed graph that is acyclic with respect to
output-reachability, `update_order` succeeds; the computed order contains
exactly the nodes backward-reachable from the output node, and for every link
with both endpoints in the order the source precedes the destination. -/
theorem c4_updateOrder_acyclic_correct (g : Graph) (hWf : g.Wf)
    (hAcy : Acyclic g) :
    ∃ ord, g.updateOrder = some (Except.ok { g with order := some ord }) ∧
      (∀ m, m ∈ ord ↔ Reach g m g.io_node) ∧
      (∀ kv ∈ g.links.fwd, kv.1.from_out ∈ ord → kv.1.to_in ∈ ord →
        ord.indexOf kv.1.from_out < ord.indexOf kv.1.to_in) := by
  rcases updateOrder_outcome g hWf with
    ⟨st2, hupd, hio, hst, hioin⟩ | ⟨e, hupd, hne, hrch, hclosed⟩
  · refine ⟨st2.order, hupd, ?_, ?_⟩
    · intro m
      constructor
      · intro hm
        have := hst.2.2.1 m hm
        rwa [hio] at this
      · exact stinv_reach_mem hst hio hioin m
    · intro kv hkv hu hv
      have hedge : Edge g kv.1.from_out kv.1.to_in := ⟨kv, hkv, rfl, rfl⟩
      have hreachv : Reach g kv.1.to_in g.io_node := by
        have := hst.2.2.1 _ hv
        rwa [hio] at this
      have hunio : kv.1.from_out ≠ st2.io_node := by
        intro heq
        have hedge2 : Edge g g.io_node kv.1.to_in := by
          rw [← hio, ← heq]
          exact hedge
        have hcyc : Relation.TransGen (Edge g) kv.1.to_in kv.1.to_in :=
          Relation.TransGen.tail' hreachv hedge2
        exact hAcy _ hreachv hcyc
      exact (hst.2.2.2.2 _ _ hedge hunio hv).2
  · exfalso
    cases he1 : e.1 with
    | nil => exact hne he1
    | cons v rest =>
      have hchain := hclosed
      rw [he1] at hchain
      have htake : (v :: rest).take 1 = [v] := rfl
      rw [htake, List.cons_append] at hchain
      have htg : Relation.TransGen (Edge g) v v :=
        chain_edge_transGen rest v v hchain
      have hrv : Reach g v g.io_node :=
        hrch v (by rw [he1]; exact List.mem_cons_self v rest)
      exact hAcy v hrv htg

/-- Witness for C4 on the chain `1→2→3` with output 3: `update_order`
succeeds with the guaranteed shape. -/
theorem c4_witness :
    ∃ ord, chainG.updateOrder =
        some (Except.ok { chainG with order := some ord }) ∧
      (∀ m, m ∈ ord ↔ Reach chainG m chainG.io_node) ∧
      (∀ kv ∈ chainG.links.fwd, kv.1.from_out ∈ ord → kv.1.to_in ∈ ord →
        ord.indexOf kv.1.from_out < ord.indexOf kv.1.to_in) :=
  c4_updateOrder_acyclic_correct chainG (by decide)
    (acyclic_of_forward_increasing chainG (by decide))

/-- **C1 counterexample**: the spec §8 cyclic scenario `a→b→c` with output
`c` plus the back link `c→a` (a cycle through the output node, refs 1,2,3) is
NOT reported: `toposort` excuses re-encountering the output node itself, so
`update_order` succeeds and returns the order `[1, 2, 3]`. -/
theorem c1_cycle_through_output_undetected :
    cycleThroughOutputG.updateOrder =
      some (Except.ok { cycleThroughOutputG with order := some [1, 2, 3] }) := by
  rfl

/-- **C1 (amended)**: a cycle that avoids the output node among
output-reaching nodes is detected: `update_order` fails with a `Cycle` whose
node list is a non-empty closed loop under the graph's edges.  (The unamended
claim is false: a cycle running through the output node itself is excused,
see `c1_cycle_through_output_undetected`.) -/
theorem c1_cycle_avoiding_output_reported (g : Graph) (hWf : g.Wf)
    (v : Nat) (cyc : List Nat)
    (hchain : List.Chain (Edge g) v (cyc ++ [v]))
    (hreach : ∀ x ∈ v :: cyc, Reach g x g.io_node)
    (hnio : ∀ x ∈ v :: cyc, x ≠ g.io_node) :
    ∃ ns, g.updateOrder = some (Except.error (OrderError.Cycle ns)) ∧
      ns ≠ [] ∧ List.Chain' (Edge g) (ns ++ ns.take 1) ∧
      ∀ x ∈ ns, Reach g x g.io_node := by
  rcases updateOrder_outcome g hWf with
    ⟨st2, hupd, hio, hst, hioin⟩ | ⟨e, hupd, hne, hrch, hclosed⟩
  · exfalso
    have hmem : ∀ x ∈ v :: cyc, x ∈ st2.order := fun x hx =>
      stinv_reach_mem hst hio hioin x (hreach x hx)
    have hprec : ∀ u w, Edge g u w → u ≠ g.io_node → w ∈ st2.order →
        u ∈ st2.order ∧ st2.order.indexOf u < st2.order.indexOf w := by
      intro u w he hu hw
      refine hst.2.2.2.2 u w he ?_ hw
      intro hh
      rw [hio] at hh
      exact hu hh
    have hvmem : v ∈ st2.order := hmem v (by simp)
    have aux : ∀ (l : List Nat) (a : Nat), List.Chain (Edge g) a (l ++ [v]) →
        (∀ x ∈ a :: l, x ≠ g.io_node) → (∀ x ∈ a :: l, x ∈ st2.order) →
        st2.order.indexOf a < st2.order.indexOf v := by
      intro l
      induction l with
      | nil =>
        intro a hch hnio2 hmem2
        rw [List.nil_append, List.chain_cons] at hch
        exact (hprec a v hch.1 (hnio2 a (by simp)) hvmem).2
      | cons b m ihl =>
        intro a hch hnio2 hmem2
        rw [List.cons_append, List.chain_cons] at hch
        have h1 := (hprec a b hch.1 (hnio2 a (by simp))
          (hmem2 b (by simp))).2
        have h2 := ihl b hch.2
          (fun x hx => hnio2 x (List.mem_cons_of_mem a hx))
          (fun x hx => hmem2 x (List.mem_cons_of_mem a hx))
        omega
    exact absurd (aux cyc v hchain hnio hmem) (lt_irrefl _)
  · exact ⟨e.1, hupd, hne, hclosed, hrch⟩

/-- Witness for C1 (amended) on the graph with the two-node cycle `1⇄2`
feeding the output node 3. -/
theorem c1_witness :
    ∃ ns, cycleAvoidingOutputG.updateOrder =
        some (Except.error (OrderError.Cycle ns)) ∧
      ns ≠ [] ∧ List.Chain' (Edge cycleAvoidingOutputG) (ns ++ ns.take 1) ∧
      ∀ x ∈ ns, Reach cycleAvoidingOutputG x cycleAvoidingOutputG.io_node :=
  c1_cycle_avoiding_output_reported cycleAvoidingOutputG (by decide) 1 [2]
    (by
      have e12 : Edge cycleAvoidingOutputG 1 2 := by decide
      have e21 : Edge cycleAvoidingOutputG 2 1 := by decide
      exact List.Chain.cons e12 (List.Chain.cons e21 List.Chain.nil))
    (by
      intro x hx
      have e12 : Edge cycleAvoidingOutputG 1 2 := by decide
      have e23 : Edge cycleAvoidingOutputG 2 3 := by decide
      have hio : cycleAvoidingOutputG.io_node = 3 := by rfl
      rw [hio]
      rcases List.mem_cons.mp hx with rfl | hx2
      · exact Relation.ReflTransGen.tail (Relation.ReflTransGen.single e12) e23
      · rcases List.mem_singleton.mp hx2 with rfl
        exact Relation.ReflTransGen.single e23)
    (by decide)

end Narwhal
